import Mathlib

/-!
Verification of a small Brainfuck interpreter repository with two variants:
a direct (one instruction per operator character) interpreter and a
run-length-encoded interpreter.  The definitions below are a shallow
embedding of the Python sources: `Simple` embeds 01_simple.py, `Batch`
embeds 02_batch.py.  Machine input is modelled as a list of lines (each a
list of characters, as returned by input()), output as a list of
characters, the tape as a total function from Int to Nat holding values
below 256, and the jump table (a Python dict) as a function from Nat to
Option Nat.  Python's % on int with positive modulus is Int.emod, which is
Lean's % on Int.  Execution is fuel-indexed; Python exceptions become
explicit error results.
-/

set_option maxRecDepth 40000

namespace BF

/-- Membership test used by both parsers (the Python test
c in "+-<>.,[]"), written as the equivalent chain of equality tests
against the eight operator characters of that string. -/
def isOp (c : Char) : Bool :=
  c == '+' || c == '-' || c == '<' || c == '>' || c == '.' || c == ',' ||
    c == '[' || c == ']'

/-- Tape length: np.zeros(30_000). -/
def tapeLen : Int := 30000

/-- Jump tables: Python dict[int, int]. -/
def Tab : Type := Nat → Option Nat

/-- Dict assignment table[k] = v. -/
def updJ (t : Tab) (k v : Nat) : Tab :=
  fun x => if x = k then some v else t x

/-- The always-empty dict. -/
def emptyJ : Tab := fun _ => none

/-- Tape assignment tape[k] = v. -/
def updT (t : Int → Nat) (k : Int) (v : Nat) : Int → Nat :=
  fun x => if x = k then v else t x

/-- One debug line: ip, cmd, ptr and tape[ptr] as printed by the source. -/
structure TraceRec where
  ip : Nat
  cmd : Char
  ptr : Int
  cell : Nat
deriving DecidableEq, Repr

/-- Interpreter state: tape pointer, tape, remaining input lines, output
written so far, debug trace lines written so far, instruction pointer, and
a ghost counter of executed instructions. -/
structure St where
  ptr : Int
  tape : Int → Nat
  inp : List (List Char)
  out : List Char
  trace : List TraceRec
  ip : Nat
  steps : Nat

/-- Fresh state: all-zero tape, ptr = ip = 0. -/
def initSt (inp : List (List Char)) : St :=
  { ptr := 0, tape := fun _ => 0, inp := inp, out := [], trace := [],
    ip := 0, steps := 0 }

/-- Errors raised by build_jump_table (SyntaxError in the source). -/
inductive BuildErr where
  | unmatchedClose (i : Nat)
  | unmatchedOpen (i : Nat)
deriving DecidableEq, Repr

/-- Errors raised inside the execution loop: a failing input() read
(EOFError or IndexError on an empty line), a missing jump-table key
(KeyError), or the RuntimeError of the default match arm. -/
inductive RunErr where
  | inputError
  | keyError
  | invalidInstruction
deriving DecidableEq, Repr

/-- Result of one loop iteration. -/
inductive StepR where
  | ok (s : St)
  | err (e : RunErr) (s : St)

/-- Result of a whole run. -/
inductive Res where
  | ok (s : St)
  | runErr (e : RunErr) (s : St)
  | syntaxErr (e : BuildErr)
  | timeout

/-- The debug record written for state s after executing cmd (the print
happens after the instruction's effect and before ip += 1). -/
def traceOf (cmd : Char) (s : St) : TraceRec :=
  { ip := s.ip, cmd := cmd, ptr := s.ptr, cell := s.tape s.ptr }

/-- Tail of every non-jumping loop iteration: optional debug print, then
ip += 1 (plus the ghost step counter). -/
def finish (dbg : Bool) (cmd : Char) (s : St) : St :=
  let s2 := if dbg then { s with trace := s.trace ++ [traceOf cmd s] } else s
  { s2 with ip := s2.ip + 1, steps := s2.steps + 1 }

namespace Simple

/-- 01_simple.py parse_code: keep exactly the operator characters. -/
def parse_code (raw : List Char) : List Char := raw.filter isOp

/-- The bracket scan of 01_simple.py build_jump_table: i is the current
index, st the stack of open-bracket indices (top first), t the table. -/
def buildAux : List Char → Nat → List Nat → Tab → Except BuildErr Tab
  | [], _, [], t => .ok t
  | [], _, o :: _, _ => .error (.unmatchedOpen o)
  | c :: rest, i, st, t =>
    if c = '[' then buildAux rest (i + 1) (i :: st) t
    else if c = ']' then
      match st with
      | [] => .error (.unmatchedClose i)
      | o :: st2 => buildAux rest (i + 1) st2 (updJ (updJ t o i) i o)
    else buildAux rest (i + 1) st t

/-- 01_simple.py build_jump_table. -/
def build_jump_table (code : List Char) : Except BuildErr Tab :=
  buildAux code 0 [] emptyJ

/-- One iteration of the while loop of 01_simple.py run (the loop guard
ip < len(code) lives in loop below).  The Python match on the command
character is rendered as a chain of equality tests; a character outside
the operator set matches no case arm and is a no-op (Python match
statement without a wildcard arm). -/
def step (code : List Char) (jt : Tab) (dbg : Bool) (s : St) : StepR :=
  let cmd := code.getD s.ip ' '
  if cmd = '>' then .ok (finish dbg cmd { s with ptr := (s.ptr + 1) % tapeLen })
  else if cmd = '<' then .ok (finish dbg cmd { s with ptr := (s.ptr - 1) % tapeLen })
  else if cmd = '+' then
    .ok (finish dbg cmd
      { s with tape := updT s.tape s.ptr ((s.tape s.ptr + 1) % 256) })
  else if cmd = '-' then
    .ok (finish dbg cmd
      { s with tape := updT s.tape s.ptr ((((s.tape s.ptr : Int) - 1) % 256).toNat) })
  else if cmd = ',' then
    match s.inp with
    | [] => .err .inputError s
    | line :: restInp =>
      match line with
      | [] => .err .inputError s
      | c :: _ =>
        .ok (finish dbg cmd
          { s with tape := updT s.tape s.ptr (c.toNat % 256),
                   inp := restInp })
  else if cmd = '.' then
    .ok (finish dbg cmd
      { s with out := s.out ++ [Char.ofNat (s.tape s.ptr)] })
  else if cmd = '[' then
    if s.tape s.ptr = 0 then
      match jt s.ip with
      | none => .err .keyError s
      | some tgt => .ok { s with ip := tgt, steps := s.steps + 1 }
    else .ok (finish dbg cmd s)
  else if cmd = ']' then
    if s.tape s.ptr ≠ 0 then
      match jt s.ip with
      | none => .err .keyError s
      | some tgt => .ok { s with ip := tgt, steps := s.steps + 1 }
    else .ok (finish dbg cmd s)
  else .ok (finish dbg cmd s)

/-- The while loop of 01_simple.py run, fuel-indexed. -/
def loop (code : List Char) (jt : Tab) (dbg : Bool) : Nat → St → Res
  | 0, _ => .timeout
  | fuel + 1, s =>
    if s.ip < code.length then
      match step code jt dbg s with
      | .ok s2 => loop code jt dbg fuel s2
      | .err e s2 => .runErr e s2
    else .ok s

/-- 01_simple.py run: build the jump table (a SyntaxError aborts before
any instruction executes), then run the loop from a fresh state. -/
def run (fuel : Nat) (dbg : Bool) (code : List Char)
    (inp : List (List Char)) : Res :=
  match build_jump_table code with
  | .error e => .syntaxErr e
  | .ok jt => loop code jt dbg fuel (initSt inp)

end Simple

namespace Batch

/-- The accumulator loop of 02_batch.py parse_code: last is the pending
run's character (None initially), k its count. -/
def parseAux : List Char → Option Char → Nat → List (Char × Nat)
  | [], none, _ => []
  | [], some l, k => [(l, k)]
  | c :: rest, acc, k =>
    if isOp c then
      match acc with
      | none => parseAux rest (some c) 1
      | some l =>
        if c = l then parseAux rest (some l) (k + 1)
        else (l, k) :: parseAux rest (some c) 1
    else parseAux rest acc k

/-- 02_batch.py parse_code: run-length encode the operator characters. -/
def parse_code (raw : List Char) : List (Char × Nat) := parseAux raw none 0

/-- The bracket scan of 02_batch.py build_jump_table: identical to the
simple variant except that it destructures (c, _) pairs. -/
def buildAux : List (Char × Nat) → Nat → List Nat → Tab → Except BuildErr Tab
  | [], _, [], t => .ok t
  | [], _, o :: _, _ => .error (.unmatchedOpen o)
  | (c, _) :: rest, i, st, t =>
    if c = '[' then buildAux rest (i + 1) (i :: st) t
    else if c = ']' then
      match st with
      | [] => .error (.unmatchedClose i)
      | o :: st2 => buildAux rest (i + 1) st2 (updJ (updJ t o i) i o)
    else buildAux rest (i + 1) st t

/-- 02_batch.py build_jump_table. -/
def build_jump_table (ops : List (Char × Nat)) : Except BuildErr Tab :=
  buildAux ops 0 [] emptyJ

/-- One iteration of the while loop of 02_batch.py run.  Note the source:
the ',' arm reads input() once and ignores the repeat count; brackets
ignore the count; an operator outside the set hits the wildcard arm and
raises RuntimeError. -/
def step (ops : List (Char × Nat)) (jt : Tab) (dbg : Bool) (s : St) : StepR :=
  let cmd := (ops.getD s.ip (' ', 0)).1
  let count := (ops.getD s.ip (' ', 0)).2
  if cmd = '>' then .ok (finish dbg cmd { s with ptr := (s.ptr + (count : Int)) % tapeLen })
  else if cmd = '<' then .ok (finish dbg cmd { s with ptr := (s.ptr - (count : Int)) % tapeLen })
  else if cmd = '+' then
    .ok (finish dbg cmd
      { s with tape := updT s.tape s.ptr ((s.tape s.ptr + count) % 256) })
  else if cmd = '-' then
    .ok (finish dbg cmd
      { s with tape := updT s.tape s.ptr ((((s.tape s.ptr : Int) - (count : Int)) % 256).toNat) })
  else if cmd = ',' then
    match s.inp with
    | [] => .err .inputError s
    | line :: restInp =>
      match line with
      | [] => .err .inputError s
      | c :: _ =>
        .ok (finish dbg cmd
          { s with tape := updT s.tape s.ptr (c.toNat % 256),
                   inp := restInp })
  else if cmd = '.' then
    .ok (finish dbg cmd
      { s with out := s.out ++ List.replicate count (Char.ofNat (s.tape s.ptr)) })
  else if cmd = '[' then
    if s.tape s.ptr = 0 then
      match jt s.ip with
      | none => .err .keyError s
      | some tgt => .ok { s with ip := tgt, steps := s.steps + 1 }
    else .ok (finish dbg cmd s)
  else if cmd = ']' then
    if s.tape s.ptr ≠ 0 then
      match jt s.ip with
      | none => .err .keyError s
      | some tgt => .ok { s with ip := tgt, steps := s.steps + 1 }
    else .ok (finish dbg cmd s)
  else .err .invalidInstruction s

/-- The while loop of 02_batch.py run, fuel-indexed. -/
def loop (ops : List (Char × Nat)) (jt : Tab) (dbg : Bool) : Nat → St → Res
  | 0, _ => .timeout
  | fuel + 1, s =>
    if s.ip < ops.length then
      match step ops jt dbg s with
      | .ok s2 => loop ops jt dbg fuel s2
      | .err e s2 => .runErr e s2
    else .ok s

/-- 02_batch.py run. -/
def run (fuel : Nat) (dbg : Bool) (ops : List (Char × Nat))
    (inp : List (List Char)) : Res :=
  match build_jump_table ops with
  | .error e => .syntaxErr e
  | .ok jt => loop ops jt dbg fuel (initSt inp)

end Batch

/-! ## Relating the two instruction formats (claim C1) -/

/-- The direct instruction sequence denoted by a run-length sequence:
each (op, n) pair stands for n consecutive copies of op. -/
def expand : List (Char × Nat) → List Char
  | [] => []
  | p :: rest => List.replicate p.2 p.1 ++ expand rest

/-- The direct position corresponding to run-length instruction index i:
the sum of the repeat counts of the first i instructions. -/
def pos : List (Char × Nat) → Nat → Nat
  | _, 0 => 0
  | [], _ + 1 => 0
  | p :: rest, i + 1 => p.2 + pos rest i

/-- The operators whose repeat count changes run-length semantics: ','
(reads once however large the count) and the brackets (individually
addressed by the jump table). -/
def mergeSensitive (c : Char) : Bool := c == ',' || c == '[' || c == ']'

/-- No two adjacent equal characters drawn from the merge-sensitive set:
under this condition the encoder gives every ',' and every bracket
repeat count 1. -/
def noMergeRuns : List Char → Bool
  | c1 :: c2 :: rest =>
    !(c1 == c2 && mergeSensitive c1) && noMergeRuns (c2 :: rest)
  | _ => true

/-- Forward correspondence of the two jump tables: a run-length entry
j ↦ k maps to a direct entry pos j ↦ pos k. -/
def TabRel (ops : List (Char × Nat)) (tr td : Tab) : Prop :=
  ∀ j k, tr j = some k → k ≤ ops.length ∧ td (pos ops j) = some (pos ops k)

/-- Correspondence of the two jump-table builds: both fail, or both
succeed with corresponding tables. -/
def BuildCorr (ops : List (Char × Nat)) :
    Except BuildErr Tab → Except BuildErr Tab → Prop
  | .ok tr, .ok td => TabRel ops tr td
  | .error _, .error _ => True
  | _, _ => False

/-- State correspondence between a run-length state and a direct state:
identical except that the direct instruction pointer sits at the direct
position of the run-length one.  Trace and step count are unconstrained. -/
def SRel (ops : List (Char × Nat)) (s t : St) : Prop :=
  t.ptr = s.ptr ∧ t.tape = s.tape ∧ t.inp = s.inp ∧ t.out = s.out ∧
    t.ip = pos ops s.ip ∧ s.ip ≤ ops.length

/-- m successive successful steps of the simple interpreter, each taken
from a non-terminal state. -/
def okSteps (code : List Char) (jt : Tab) (dbg : Bool) : Nat → St → St → Prop
  | 0, t, t2 => t = t2
  | m + 1, t, t2 => t.ip < code.length ∧
      ∃ t1, Simple.step code jt dbg t = .ok t1 ∧ okSteps code jt dbg m t1 t2

/-- Correspondence of loop results: same termination status, related
final states. -/
def ResRel (ops : List (Char × Nat)) : Res → Res → Prop
  | .ok s, .ok t => SRel ops s t
  | .runErr e s, .runErr e2 t => e = e2 ∧ SRel ops s t
  | .timeout, .timeout => True
  | _, _ => False

/-- Byte-identical observable behavior of two run results: same status,
same program output (syntax-error runs both produce no output). -/
def outsMatch : Res → Res → Prop
  | .ok s, .ok t => s.out = t.out
  | .runErr e s, .runErr e2 t => e = e2 ∧ s.out = t.out
  | .syntaxErr _, .syntaxErr _ => True
  | .timeout, .timeout => True
  | _, _ => False

/-! ## Result projections (St and Res contain a function-valued tape, so
whole-value equality is not decidable; claims are stated through these). -/

/-- Program output of a completed run (None for errors and timeouts). -/
def resOut : Res → Option (List Char)
  | .ok s => some s.out
  | _ => none

/-- Output written to the sink by the time the run ended, including runs
that ended in a runtime error (build errors produce no output). -/
def resOutAll : Res → List Char
  | .ok s => s.out
  | .runErr _ s => s.out
  | _ => []

/-- The runtime error of a run, if any. -/
def resErr : Res → Option RunErr
  | .runErr e _ => some e
  | _ => none

/-- The build error of a run, if any. -/
def resSyn : Res → Option BuildErr
  | .syntaxErr e => some e
  | _ => none

/-- Did the run complete normally? -/
def resIsOk : Res → Bool
  | .ok _ => true
  | _ => false

/-- Final tape pointer of a completed run. -/
def resPtr : Res → Int
  | .ok s => s.ptr
  | _ => -1

/-- Final value of tape cell 0 of a completed run. -/
def resCell0 : Res → Nat
  | .ok s => s.tape 0
  | _ => 1000

/-- Remaining (unconsumed) input of a completed run. -/
def resInp : Res → List (List Char)
  | .ok s => s.inp
  | _ => []

/-- Debug trace of a completed run. -/
def resTrace : Res → List TraceRec
  | .ok s => s.trace
  | _ => []

/-- Number of executed instructions of a completed run. -/
def resSteps : Res → Nat
  | .ok s => s.steps
  | _ => 0

/-- Final instruction pointer of a completed run. -/
def resIp : Res → Nat
  | .ok s => s.ip
  | _ => 0

/-- The error of a jump-table build, if any. -/
def buildErr : Except BuildErr Tab → Option BuildErr
  | .error e => some e
  | .ok _ => none

/-- The state carried by a step result. -/
def stRof : StepR → St
  | .ok s => s
  | .err _ s => s

/-- Did this loop iteration take a bracket jump (and hence hit continue
before the debug print)?  Decided from the command and the current cell. -/
def jumped (cmd : Char) (cell : Nat) : Bool :=
  (cmd == '[' && cell == 0) || (cmd == ']' && !(cell == 0))

/-- Append the debug record belonging to a non-jumping iteration that
started in state pre to the result of that iteration. -/
def addTrace (cmd : Char) (pre : St) : StepR → StepR
  | .ok s2 =>
    if jumped cmd (pre.tape pre.ptr) then .ok s2
    else .ok { s2 with trace := s2.trace ++ [⟨pre.ip, cmd, s2.ptr, s2.tape s2.ptr⟩] }
  | r => r

/-- Is this character one of the two bracket operators? -/
def isBracket (c : Char) : Bool := c == '[' || c == ']'

/-- The table of a successful jump-table build (empty table otherwise). -/
def getTab : Except BuildErr Tab → Tab
  | .ok t => t
  | .error _ => emptyJ

/-- Forget the debug trace of a state. -/
def sansTr (s : St) : St := { s with trace := [] }

/-- Forget the debug trace of a step result. -/
def stepSans : StepR → StepR
  | .ok s => .ok (sansTr s)
  | .err e s => .err e (sansTr s)

/-- Forget the debug trace of a run result. -/
def resSans : Res → Res
  | .ok s => .ok (sansTr s)
  | .runErr e s => .runErr e (sansTr s)
  | .syntaxErr e => .syntaxErr e
  | .timeout => .timeout

/-! ## Small rewriting lemmas about finish and updT -/

@[simp] theorem finish_ptr (dbg : Bool) (c : Char) (s : St) :
    (finish dbg c s).ptr = s.ptr := by
  unfold finish; cases dbg <;> rfl

@[simp] theorem finish_tape (dbg : Bool) (c : Char) (s : St) :
    (finish dbg c s).tape = s.tape := by
  unfold finish; cases dbg <;> rfl

@[simp] theorem finish_inp (dbg : Bool) (c : Char) (s : St) :
    (finish dbg c s).inp = s.inp := by
  unfold finish; cases dbg <;> rfl

@[simp] theorem finish_out (dbg : Bool) (c : Char) (s : St) :
    (finish dbg c s).out = s.out := by
  unfold finish; cases dbg <;> rfl

@[simp] theorem finish_ip (dbg : Bool) (c : Char) (s : St) :
    (finish dbg c s).ip = s.ip + 1 := by
  unfold finish; cases dbg <;> rfl

@[simp] theorem finish_steps (dbg : Bool) (c : Char) (s : St) :
    (finish dbg c s).steps = s.steps + 1 := by
  unfold finish; cases dbg <;> rfl

theorem finish_trace (dbg : Bool) (c : Char) (s : St) :
    (finish dbg c s).trace =
      s.trace ++ (if dbg then [traceOf c s] else []) := by
  unfold finish; cases dbg <;> simp

theorem updT_lt (t : Int → Nat) (k : Int) (v : Nat) (hv : v < 256)
    (ht : ∀ i, t i < 256) : ∀ i, updT t k v i < 256 := by
  intro i
  unfold updT
  by_cases h : i = k <;> simp [h, hv, ht i]

/-- Exhaustive case split on a command character. -/
theorem cmd_cases (c : Char) :
    c = '>' ∨ c = '<' ∨ c = '+' ∨ c = '-' ∨ c = ',' ∨ c = '.' ∨ c = '[' ∨
      c = ']' ∨ isOp c = false := by
  by_cases h1 : c = '>'
  · tauto
  by_cases h2 : c = '<'
  · tauto
  by_cases h3 : c = '+'
  · tauto
  by_cases h4 : c = '-'
  · tauto
  by_cases h5 : c = ','
  · tauto
  by_cases h6 : c = '.'
  · tauto
  by_cases h7 : c = '['
  · tauto
  by_cases h8 : c = ']'
  · tauto
  have : isOp c = false := by
    simp only [isOp, Bool.or_eq_false_iff, beq_eq_false_iff_ne, ne_eq]
    tauto
  tauto

/-- A character outside the operator set differs from all eight operators. -/
theorem isOp_false_ne (c : Char) (h : isOp c = false) :
    ¬(c = '+') ∧ ¬(c = '-') ∧ ¬(c = '<') ∧ ¬(c = '>') ∧ ¬(c = '.') ∧
      ¬(c = ',') ∧ ¬(c = '[') ∧ ¬(c = ']') := by
  simp only [isOp, Bool.or_eq_false_iff, beq_eq_false_iff_ne, ne_eq] at h
  tauto

/-- A valid operator is one of the eight characters. -/
theorem isOp_true_cases (c : Char) (h : isOp c = true) :
    c = '>' ∨ c = '<' ∨ c = '+' ∨ c = '-' ∨ c = ',' ∨ c = '.' ∨ c = '[' ∨
      c = ']' := by
  rcases cmd_cases c with hc | hc | hc | hc | hc | hc | hc | hc | hc <;>
    first | tauto | (rw [hc] at h; cases h)

/-! ## Arm-by-arm equations for Simple.step -/

namespace Simple

variable (code : List Char) (jt : Tab) (dbg : Bool) (s : St)

theorem step_gt (h : code.getD s.ip ' ' = '>') :
    step code jt dbg s = .ok (finish dbg '>' { s with ptr := (s.ptr + 1) % tapeLen }) := by
  unfold step; rw [h]; rfl

theorem step_lt (h : code.getD s.ip ' ' = '<') :
    step code jt dbg s = .ok (finish dbg '<' { s with ptr := (s.ptr - 1) % tapeLen }) := by
  unfold step; rw [h]; rfl

theorem step_plus (h : code.getD s.ip ' ' = '+') :
    step code jt dbg s =
      .ok (finish dbg '+'
        { s with tape := updT s.tape s.ptr ((s.tape s.ptr + 1) % 256) }) := by
  unfold step; rw [h]; rfl

theorem step_minus (h : code.getD s.ip ' ' = '-') :
    step code jt dbg s =
      .ok (finish dbg '-'
        { s with tape := updT s.tape s.ptr ((((s.tape s.ptr : Int) - 1) % 256).toNat) }) := by
  unfold step; rw [h]; rfl

theorem step_comma_ok (c : Char) (line : List Char) (restInp : List (List Char))
    (h : code.getD s.ip ' ' = ',') (hinp : s.inp = (c :: line) :: restInp) :
    step code jt dbg s =
      .ok (finish dbg ','
        { s with tape := updT s.tape s.ptr (c.toNat % 256), inp := restInp }) := by
  unfold step; rw [h, hinp]; rfl

theorem step_comma_empty (h : code.getD s.ip ' ' = ',') (hinp : s.inp = []) :
    step code jt dbg s = .err .inputError s := by
  unfold step; rw [h, hinp]; rfl

theorem step_comma_emptyline (restInp : List (List Char))
    (h : code.getD s.ip ' ' = ',') (hinp : s.inp = [] :: restInp) :
    step code jt dbg s = .err .inputError s := by
  unfold step; rw [h, hinp]; rfl

theorem step_dot (h : code.getD s.ip ' ' = '.') :
    step code jt dbg s =
      .ok (finish dbg '.' { s with out := s.out ++ [Char.ofNat (s.tape s.ptr)] }) := by
  unfold step; rw [h]; rfl

theorem step_lbrack_jump (tgt : Nat) (h : code.getD s.ip ' ' = '[')
    (hz : s.tape s.ptr = 0) (hj : jt s.ip = some tgt) :
    step code jt dbg s = .ok { s with ip := tgt, steps := s.steps + 1 } := by
  unfold step; rw [h, hz, hj]; rfl

theorem step_lbrack_key (h : code.getD s.ip ' ' = '[')
    (hz : s.tape s.ptr = 0) (hj : jt s.ip = none) :
    step code jt dbg s = .err .keyError s := by
  unfold step; rw [h, hz, hj]; rfl

theorem step_lbrack_fall (m : Nat) (h : code.getD s.ip ' ' = '[')
    (hz : s.tape s.ptr = m + 1) :
    step code jt dbg s = .ok (finish dbg '[' s) := by
  unfold step; rw [h, hz]; rfl

theorem step_rbrack_jump (m tgt : Nat) (h : code.getD s.ip ' ' = ']')
    (hz : s.tape s.ptr = m + 1) (hj : jt s.ip = some tgt) :
    step code jt dbg s = .ok { s with ip := tgt, steps := s.steps + 1 } := by
  unfold step; rw [h, hz, hj]; rfl

theorem step_rbrack_key (m : Nat) (h : code.getD s.ip ' ' = ']')
    (hz : s.tape s.ptr = m + 1) (hj : jt s.ip = none) :
    step code jt dbg s = .err .keyError s := by
  unfold step; rw [h, hz, hj]; rfl

theorem step_rbrack_fall (h : code.getD s.ip ' ' = ']')
    (hz : s.tape s.ptr = 0) :
    step code jt dbg s = .ok (finish dbg ']' s) := by
  unfold step; rw [h, hz]; rfl

theorem step_other (h : isOp (code.getD s.ip ' ') = false) :
    step code jt dbg s = .ok (finish dbg (code.getD s.ip ' ') s) := by
  have hne : ¬(code.getD s.ip ' ' = '+') ∧ ¬(code.getD s.ip ' ' = '-') ∧
      ¬(code.getD s.ip ' ' = '<') ∧ ¬(code.getD s.ip ' ' = '>') ∧
      ¬(code.getD s.ip ' ' = '.') ∧ ¬(code.getD s.ip ' ' = ',') ∧
      ¬(code.getD s.ip ' ' = '[') ∧ ¬(code.getD s.ip ' ' = ']') := by
    simp only [isOp, Bool.or_eq_false_iff, beq_eq_false_iff_ne, ne_eq] at h
    tauto
  obtain ⟨h1, h2, h3, h4, h5, h6, h7, h8⟩ := hne
  simp only [step]
  rw [if_neg h4, if_neg h3, if_neg h1, if_neg h2, if_neg h6, if_neg h5,
    if_neg h7, if_neg h8]

end Simple

/-! ## Arm-by-arm equations for Batch.step -/

namespace Batch

variable (ops : List (Char × Nat)) (jt : Tab) (dbg : Bool) (s : St) (n : Nat)

theorem step_gt_rle (h : ops.getD s.ip (' ', 0) = ('>', n)) :
    step ops jt dbg s =
      .ok (finish dbg '>' { s with ptr := (s.ptr + (n : Int)) % tapeLen }) := by
  unfold step; rw [h]; rfl

theorem step_lt_rle (h : ops.getD s.ip (' ', 0) = ('<', n)) :
    step ops jt dbg s =
      .ok (finish dbg '<' { s with ptr := (s.ptr - (n : Int)) % tapeLen }) := by
  unfold step; rw [h]; rfl

theorem step_plus_rle (h : ops.getD s.ip (' ', 0) = ('+', n)) :
    step ops jt dbg s =
      .ok (finish dbg '+'
        { s with tape := updT s.tape s.ptr ((s.tape s.ptr + n) % 256) }) := by
  unfold step; rw [h]; rfl

theorem step_minus_rle (h : ops.getD s.ip (' ', 0) = ('-', n)) :
    step ops jt dbg s =
      .ok (finish dbg '-'
        { s with tape := updT s.tape s.ptr ((((s.tape s.ptr : Int) - (n : Int)) % 256).toNat) }) := by
  unfold step; rw [h]; rfl

theorem step_comma_ok_rle (c : Char) (line : List Char) (restInp : List (List Char))
    (h : ops.getD s.ip (' ', 0) = (',', n)) (hinp : s.inp = (c :: line) :: restInp) :
    step ops jt dbg s =
      .ok (finish dbg ','
        { s with tape := updT s.tape s.ptr (c.toNat % 256), inp := restInp }) := by
  unfold step; rw [h, hinp]; rfl

theorem step_comma_empty_rle (h : ops.getD s.ip (' ', 0) = (',', n)) (hinp : s.inp = []) :
    step ops jt dbg s = .err .inputError s := by
  unfold step; rw [h, hinp]; rfl

theorem step_comma_emptyline_rle (restInp : List (List Char))
    (h : ops.getD s.ip (' ', 0) = (',', n)) (hinp : s.inp = [] :: restInp) :
    step ops jt dbg s = .err .inputError s := by
  unfold step; rw [h, hinp]; rfl

theorem step_dot_rle (h : ops.getD s.ip (' ', 0) = ('.', n)) :
    step ops jt dbg s =
      .ok (finish dbg '.'
        { s with out := s.out ++ List.replicate n (Char.ofNat (s.tape s.ptr)) }) := by
  unfold step; rw [h]; rfl

theorem step_lbrack_jump_rle (tgt : Nat) (h : ops.getD s.ip (' ', 0) = ('[', n))
    (hz : s.tape s.ptr = 0) (hj : jt s.ip = some tgt) :
    step ops jt dbg s = .ok { s with ip := tgt, steps := s.steps + 1 } := by
  unfold step; rw [h, hz, hj]; rfl

theorem step_lbrack_key_rle (h : ops.getD s.ip (' ', 0) = ('[', n))
    (hz : s.tape s.ptr = 0) (hj : jt s.ip = none) :
    step ops jt dbg s = .err .keyError s := by
  unfold step; rw [h, hz, hj]; rfl

theorem step_lbrack_fall_rle (m : Nat) (h : ops.getD s.ip (' ', 0) = ('[', n))
    (hz : s.tape s.ptr = m + 1) :
    step ops jt dbg s = .ok (finish dbg '[' s) := by
  unfold step; rw [h, hz]; rfl

theorem step_rbrack_jump_rle (m tgt : Nat) (h : ops.getD s.ip (' ', 0) = (']', n))
    (hz : s.tape s.ptr = m + 1) (hj : jt s.ip = some tgt) :
    step ops jt dbg s = .ok { s with ip := tgt, steps := s.steps + 1 } := by
  unfold step; rw [h, hz, hj]; rfl

theorem step_rbrack_key_rle (m : Nat) (h : ops.getD s.ip (' ', 0) = (']', n))
    (hz : s.tape s.ptr = m + 1) (hj : jt s.ip = none) :
    step ops jt dbg s = .err .keyError s := by
  unfold step; rw [h, hz, hj]; rfl

theorem step_rbrack_fall_rle (h : ops.getD s.ip (' ', 0) = (']', n))
    (hz : s.tape s.ptr = 0) :
    step ops jt dbg s = .ok (finish dbg ']' s) := by
  unfold step; rw [h, hz]; rfl

theorem step_invalid (c : Char) (h : ops.getD s.ip (' ', 0) = (c, n))
    (hv : isOp c = false) :
    step ops jt dbg s = .err .invalidInstruction s := by
  have hne : ¬(c = '+') ∧ ¬(c = '-') ∧ ¬(c = '<') ∧ ¬(c = '>') ∧
      ¬(c = '.') ∧ ¬(c = ',') ∧ ¬(c = '[') ∧ ¬(c = ']') := by
    simp only [isOp, Bool.or_eq_false_iff, beq_eq_false_iff_ne, ne_eq] at hv
    tauto
  obtain ⟨h1, h2, h3, h4, h5, h6, h7, h8⟩ := hne
  simp only [step, h]
  rw [if_neg h4, if_neg h3, if_neg h1, if_neg h2, if_neg h6, if_neg h5,
    if_neg h7, if_neg h8]

end Batch

/-! ## Pointer and cell invariants (claim C6) -/

/-- Any successful step of the simple interpreter keeps the tape pointer
inside [0, tapeLen) and every cell below 256. -/
theorem step_preserves_inv (code : List Char) (jt : Tab) (dbg : Bool)
    (s s2 : St) (h0 : 0 ≤ s.ptr) (h1 : s.ptr < tapeLen)
    (h2 : ∀ i, s.tape i < 256) (hstep : Simple.step code jt dbg s = .ok s2) :
    0 ≤ s2.ptr ∧ s2.ptr < tapeLen ∧ ∀ i, s2.tape i < 256 := by
  have hTL : (0 : Int) < tapeLen := by norm_num [tapeLen]
  rcases cmd_cases (code.getD s.ip ' ') with hc | hc | hc | hc | hc | hc | hc | hc | hc
  · rw [Simple.step_gt code jt dbg s hc] at hstep
    cases hstep
    exact ⟨by simpa using Int.emod_nonneg _ (ne_of_gt hTL),
           by simpa using Int.emod_lt_of_pos _ hTL,
           by simpa using h2⟩
  · rw [Simple.step_lt code jt dbg s hc] at hstep
    cases hstep
    exact ⟨by simpa using Int.emod_nonneg _ (ne_of_gt hTL),
           by simpa using Int.emod_lt_of_pos _ hTL,
           by simpa using h2⟩
  · rw [Simple.step_plus code jt dbg s hc] at hstep
    cases hstep
    refine ⟨by simpa using h0, by simpa using h1, ?_⟩
    simp only [finish_tape]
    exact updT_lt _ _ _ (Nat.mod_lt _ (by norm_num)) h2
  · rw [Simple.step_minus code jt dbg s hc] at hstep
    cases hstep
    refine ⟨by simpa using h0, by simpa using h1, ?_⟩
    simp only [finish_tape]
    refine updT_lt _ _ _ ?_ h2
    have ha : ((s.tape s.ptr : Int) - 1) % 256 < 256 := Int.emod_lt_of_pos _ (by norm_num)
    have hb : 0 ≤ ((s.tape s.ptr : Int) - 1) % 256 := Int.emod_nonneg _ (by norm_num)
    omega
  · rcases hs : s.inp with _ | ⟨line, restInp⟩
    · rw [Simple.step_comma_empty code jt dbg s hc hs] at hstep
      cases hstep
    · rcases hl : line with _ | ⟨c, tl⟩
      · rw [hl] at hs
        rw [Simple.step_comma_emptyline code jt dbg s restInp hc hs] at hstep
        cases hstep
      · rw [hl] at hs
        rw [Simple.step_comma_ok code jt dbg s c tl restInp hc hs] at hstep
        cases hstep
        refine ⟨by simpa using h0, by simpa using h1, ?_⟩
        simp only [finish_tape]
        exact updT_lt _ _ _ (Nat.mod_lt _ (by norm_num)) h2
  · rw [Simple.step_dot code jt dbg s hc] at hstep
    cases hstep
    exact ⟨by simpa using h0, by simpa using h1, by simpa using h2⟩
  · by_cases hz : s.tape s.ptr = 0
    · rcases hj : jt s.ip with _ | tgt
      · rw [Simple.step_lbrack_key code jt dbg s hc hz hj] at hstep
        cases hstep
      · rw [Simple.step_lbrack_jump code jt dbg s tgt hc hz hj] at hstep
        cases hstep
        exact ⟨h0, h1, h2⟩
    · obtain ⟨m, hm⟩ := Nat.exists_eq_succ_of_ne_zero hz
      rw [Simple.step_lbrack_fall code jt dbg s m hc hm] at hstep
      cases hstep
      exact ⟨by simpa using h0, by simpa using h1, by simpa using h2⟩
  · by_cases hz : s.tape s.ptr = 0
    · rw [Simple.step_rbrack_fall code jt dbg s hc hz] at hstep
      cases hstep
      exact ⟨by simpa using h0, by simpa using h1, by simpa using h2⟩
    · obtain ⟨m, hm⟩ := Nat.exists_eq_succ_of_ne_zero hz
      rcases hj : jt s.ip with _ | tgt
      · rw [Simple.step_rbrack_key code jt dbg s m hc hm hj] at hstep
        cases hstep
      · rw [Simple.step_rbrack_jump code jt dbg s m tgt hc hm hj] at hstep
        cases hstep
        exact ⟨h0, h1, h2⟩
  · rw [Simple.step_other code jt dbg s hc] at hstep
    cases hstep
    exact ⟨by simpa using h0, by simpa using h1, by simpa using h2⟩

/-! ## Jump-table builder invariants (claims C7, C1) -/

theorem drop_cons_getD {α : Type} (l : List α) (d : α) :
    ∀ (i : Nat) (c : α) (r : List α), l.drop i = c :: r →
      l.getD i d = c ∧ l.drop (i + 1) = r ∧ i < l.length := by
  induction l with
  | nil => intro i c r h; rw [List.drop_nil] at h; cases h
  | cons x xs ih =>
    intro i c r h
    cases i with
    | zero =>
      rw [List.drop_zero] at h
      cases h
      exact ⟨rfl, by simp, by simp⟩
    | succ i =>
      rw [List.drop_succ_cons] at h
      obtain ⟨h1, h2, h3⟩ := ih i c r h
      exact ⟨by simpa using h1, by simpa using h2, by simpa using h3⟩

@[simp] theorem updJ_same (t : Tab) (k v : Nat) : updJ t k v k = some v := by
  simp [updJ]

theorem updJ_other (t : Tab) (k v x : Nat) (h : x ≠ k) : updJ t k v x = t x := by
  simp [updJ, h]

/-- The inductive invariant of the bracket scan: the table built so far is
symmetric with entries below the current index, stack entries are
decreasing unmatched positions, and table entries plus stack positions are
exactly the bracket positions seen so far. -/
theorem buildAux_invariant (code : List Char) :
    ∀ (rest : List Char) (i : Nat) (st : List Nat) (t : Tab),
      code.drop i = rest →
      i ≤ code.length →
      (∀ a b, t a = some b → t b = some a) →
      (∀ a b, t a = some b → a < i ∧ b < i) →
      (∀ o, o ∈ st → o < i ∧ t o = none) →
      List.Pairwise (fun a b => a > b) st →
      (∀ a, ((t a).isSome = true ∨ a ∈ st) ↔
        (a < i ∧ isBracket (code.getD a ' ') = true)) →
      ∀ tb, Simple.buildAux rest i st t = .ok tb →
        (∀ a b, tb a = some b → tb b = some a) ∧
        (∀ a b, tb a = some b → a < code.length ∧ b < code.length) ∧
        (∀ a, (tb a).isSome = true ↔
          (a < code.length ∧ isBracket (code.getD a ' ') = true)) := by
  intro rest
  induction rest with
  | nil =>
    intro i st t hdrop hi hsym hlt hst hpw hdom tb hok
    cases st with
    | cons o st2 => cases hok
    | nil =>
      cases hok
      have hilen : i = code.length := by
        have := List.drop_eq_nil_iff.mp hdrop
        omega
      refine ⟨hsym, ?_, ?_⟩
      · intro a b hab
        have := hlt a b hab
        omega
      · intro a
        have := hdom a
        simp only [List.mem_nil_iff, or_false] at this
        rw [← hilen]
        exact this
  | cons c rest ih =>
    intro i st t hdrop hi hsym hlt hst hpw hdom tb hok
    obtain ⟨hgd, hdrop2, hilt⟩ := drop_cons_getD code ' ' i c rest hdrop
    by_cases h1 : c = '['
    · subst h1
      have hti : t i = none := by
        cases hti2 : t i with
        | none => rfl
        | some b => exact absurd (hlt i b hti2).1 (lt_irrefl i)
      refine ih (i + 1) (i :: st) t hdrop2 hilt hsym ?_ ?_ ?_ ?_ tb hok
      · intro a b hab
        have := hlt a b hab
        omega
      · intro o ho
        rcases List.mem_cons.mp ho with rfl | ho2
        · exact ⟨Nat.lt_succ_self o, hti⟩
        · have := hst o ho2
          exact ⟨by omega, this.2⟩
      · rw [List.pairwise_cons]
        exact ⟨fun o ho => (hst o ho).1, hpw⟩
      · intro a
        by_cases ha : a = i
        · subst ha
          constructor
          · intro _
            exact ⟨Nat.lt_succ_self a, by rw [hgd]; rfl⟩
          · intro _
            exact Or.inr (List.mem_cons_self a st)
        · have hold := hdom a
          constructor
          · intro hx
            rcases hx with hx | hx
            · have := hold.mp (Or.inl hx)
              exact ⟨by omega, this.2⟩
            · rcases List.mem_cons.mp hx with rfl | hx2
              · exact absurd rfl ha
              · have := hold.mp (Or.inr hx2)
                exact ⟨by omega, this.2⟩
          · rintro ⟨hai, hbr⟩
            have hai2 : a < i := by omega
            rcases hold.mpr ⟨hai2, hbr⟩ with hx | hx
            · exact Or.inl hx
            · exact Or.inr (List.mem_cons.mpr (Or.inr hx))
    · by_cases h2 : c = ']'
      · subst h2
        cases st with
        | nil =>
          exact absurd hok (by simp [Simple.buildAux])
        | cons o st2 =>
          have hoi : o < i := (hst o (List.mem_cons_self o st2)).1
          have hto : t o = none := (hst o (List.mem_cons_self o st2)).2
          have hti : t i = none := by
            cases hti2 : t i with
            | none => rfl
            | some b => exact absurd (hlt i b hti2).1 (lt_irrefl i)
          have hone : o ≠ i := by omega
          have ht' : ∀ x, updJ (updJ t o i) i o x =
              if x = i then some o else if x = o then some i else t x := by
            intro x
            by_cases hx : x = i
            · subst hx; simp
            · rw [updJ_other _ _ _ _ hx]
              by_cases hy : x = o
              · subst hy; simp [hx]
              · rw [updJ_other _ _ _ _ hy, if_neg hx, if_neg hy]
          refine ih (i + 1) st2 (updJ (updJ t o i) i o) hdrop2 hilt ?_ ?_ ?_ ?_ ?_ tb hok
          · intro a b hab
            rw [ht'] at hab
            rw [ht']
            by_cases hai : a = i
            · subst hai
              rw [if_pos rfl] at hab
              cases hab
              rw [if_neg hone, if_pos rfl]
            · rw [if_neg hai] at hab
              by_cases hao : a = o
              · subst hao
                rw [if_pos rfl] at hab
                cases hab
                rw [if_pos rfl]
              · rw [if_neg hao] at hab
                have hba := hsym a b hab
                have hbi : b ≠ i := by
                  intro hbi; subst hbi; rw [hti] at hba; cases hba
                have hbo : b ≠ o := by
                  intro hbo; subst hbo; rw [hto] at hba; cases hba
                rw [if_neg hbi, if_neg hbo]
                exact hba
          · intro a b hab
            rw [ht'] at hab
            by_cases hai : a = i
            · subst hai; rw [if_pos rfl] at hab; cases hab; omega
            · rw [if_neg hai] at hab
              by_cases hao : a = o
              · subst hao; rw [if_pos rfl] at hab; cases hab; omega
              · rw [if_neg hao] at hab
                have := hlt a b hab
                omega
          · intro o2 ho2
            have ho2s := hst o2 (List.mem_cons.mpr (Or.inr ho2))
            have ho2o : o2 ≠ o := by
              have := (List.pairwise_cons.mp hpw).1 o2 ho2
              omega
            have ho2i : o2 ≠ i := by omega
            refine ⟨by omega, ?_⟩
            rw [ht', if_neg ho2i, if_neg ho2o]
            exact ho2s.2
          · exact (List.pairwise_cons.mp hpw).2
          · intro a
            by_cases hai : a = i
            · subst hai
              constructor
              · intro _
                exact ⟨Nat.lt_succ_self a, by rw [hgd]; rfl⟩
              · intro _
                left
                rw [ht', if_pos rfl]
                rfl
            · by_cases hao : a = o
              · subst hao
                constructor
                · intro _
                  have := (hdom a).mp (Or.inr (List.mem_cons_self a st2))
                  exact ⟨by omega, this.2⟩
                · intro _
                  left
                  rw [ht', if_neg hai, if_pos rfl]
                  rfl
              · have hold := hdom a
                have hta : updJ (updJ t o i) i o a = t a := by
                  rw [ht', if_neg hai, if_neg hao]
                rw [hta]
                constructor
                · intro hx
                  rcases hx with hx | hx
                  · have := hold.mp (Or.inl hx)
                    exact ⟨by omega, this.2⟩
                  · have := hold.mp (Or.inr (List.mem_cons.mpr (Or.inr hx)))
                    exact ⟨by omega, this.2⟩
                · rintro ⟨hlt2, hbr⟩
                  have hai2 : a < i := by omega
                  rcases hold.mpr ⟨hai2, hbr⟩ with hx | hx
                  · exact Or.inl hx
                  · rcases List.mem_cons.mp hx with rfl | hx2
                    · exact absurd rfl hao
                    · exact Or.inr hx2
      · simp only [Simple.buildAux] at hok
        rw [if_neg h1, if_neg h2] at hok
        have hbrc : isBracket c = false := by
          simp [isBracket, h1, h2]
        refine ih (i + 1) st t hdrop2 hilt hsym ?_ ?_ hpw ?_ tb hok
        · intro a b hab
          have := hlt a b hab
          omega
        · intro o ho
          have := hst o ho
          exact ⟨by omega, this.2⟩
        · intro a
          by_cases hai : a = i
          · subst hai
            constructor
            · intro hx
              rcases hx with hx | hx
              · cases htx : t a with
                | none => rw [htx] at hx; cases hx
                | some b => exact absurd (hlt a b htx).1 (lt_irrefl a)
              · exact absurd (hst a hx).1 (lt_irrefl a)
            · rintro ⟨-, hbrx⟩
              rw [hgd] at hbrx
              rw [hbrc] at hbrx
              cases hbrx
          · have hold := hdom a
            constructor
            · intro hx
              have := hold.mp hx
              exact ⟨by omega, this.2⟩
            · rintro ⟨hlt2, hbrx⟩
              exact hold.mpr ⟨by omega, hbrx⟩

/-- Specification of a successful jump-table build: symmetry, index
bounds, and the exact domain (the bracket positions). -/
theorem build_spec (code : List Char) (tb : Tab)
    (h : Simple.build_jump_table code = .ok tb) :
    (∀ a b, tb a = some b → tb b = some a) ∧
    (∀ a b, tb a = some b → a < code.length ∧ b < code.length) ∧
    (∀ a, (tb a).isSome = true ↔
      (a < code.length ∧ isBracket (code.getD a ' ') = true)) :=
  buildAux_invariant code code 0 [] emptyJ (by simp) (by simp)
    (fun a b hab => by cases hab) (fun a b hab => by cases hab)
    (fun o ho => by cases ho) List.Pairwise.nil
    (fun a => by simp [emptyJ]) tb h

/-- The run-length builder ignores counts: it equals the simple builder
applied to the operator components. -/
theorem buildAux_map : ∀ (ops : List (Char × Nat)) (i : Nat) (st : List Nat) (t : Tab),
    Batch.buildAux ops i st t = Simple.buildAux (ops.map Prod.fst) i st t := by
  intro ops
  induction ops with
  | nil => intro i st t; cases st <;> rfl
  | cons p rest ih =>
    intro i st t
    obtain ⟨c, n⟩ := p
    by_cases h1 : c = '['
    · subst h1
      have hB : Batch.buildAux (('[', n) :: rest) i st t =
          Batch.buildAux rest (i + 1) (i :: st) t := rfl
      rw [hB, ih]
      rfl
    · by_cases h2 : c = ']'
      · subst h2
        cases st with
        | nil => rfl
        | cons o st2 =>
          have hB : Batch.buildAux (((']' : Char), n) :: rest) i (o :: st2) t =
              Batch.buildAux rest (i + 1) st2 (updJ (updJ t o i) i o) := rfl
          rw [hB, ih]
          rfl
      · have hB : Batch.buildAux ((c, n) :: rest) i st t =
            Batch.buildAux rest (i + 1) st t := by
          simp only [Batch.buildAux]
          rw [if_neg h1, if_neg h2]
        have hS : Simple.buildAux (((c, n) :: rest).map Prod.fst) i st t =
            Simple.buildAux (rest.map Prod.fst) (i + 1) st t := by
          simp only [List.map_cons, Simple.buildAux]
          rw [if_neg h1, if_neg h2]
        rw [hB, hS, ih]

theorem build_jump_table_map (ops : List (Char × Nat)) :
    Batch.build_jump_table ops = Simple.build_jump_table (ops.map Prod.fst) :=
  buildAux_map ops 0 [] emptyJ

theorem map_fst_getD (ops : List (Char × Nat)) :
    ∀ a, (ops.map Prod.fst).getD a ' ' = (ops.getD a (' ', 0)).1 := by
  induction ops with
  | nil => intro a; rfl
  | cons p rest ih =>
    intro a
    cases a with
    | zero => rfl
    | succ a => simpa using ih a

/-- C7: for every program whose jump-table construction succeeds, in both
variants, the table is symmetric — table[table[i]] = i for every
recorded i — and the indices present in the table are exactly the bracket
positions of the instruction sequence. -/
theorem C7_jump_table_symmetric :
    (∀ (code : List Char) (tb : Tab), Simple.build_jump_table code = .ok tb →
      (∀ a b, tb a = some b → tb b = some a) ∧
      (∀ a, (tb a).isSome = true ↔
        (a < code.length ∧ isBracket (code.getD a ' ') = true))) ∧
    (∀ (ops : List (Char × Nat)) (tb : Tab), Batch.build_jump_table ops = .ok tb →
      (∀ a b, tb a = some b → tb b = some a) ∧
      (∀ a, (tb a).isSome = true ↔
        (a < ops.length ∧ isBracket (ops.getD a (' ', 0)).1 = true))) := by
  constructor
  · intro code tb h
    obtain ⟨hs, -, hd⟩ := build_spec code tb h
    exact ⟨hs, hd⟩
  · intro ops tb h
    rw [build_jump_table_map] at h
    obtain ⟨hs, -, hd⟩ := build_spec (ops.map Prod.fst) tb h
    refine ⟨hs, fun a => ?_⟩
    rw [hd a, List.length_map, map_fst_getD]

/-- Witness for C7_jump_table_symmetric on the program "[]". -/
theorem C7_jump_table_symmetric_witness :
    (∀ a b, getTab (Simple.build_jump_table ['[', ']']) a = some b →
      getTab (Simple.build_jump_table ['[', ']']) b = some a) ∧
    (∀ a, (getTab (Simple.build_jump_table ['[', ']']) a).isSome = true ↔
      (a < (['[', ']'] : List Char).length ∧
        isBracket ((['[', ']'] : List Char).getD a ' ') = true)) :=
  C7_jump_table_symmetric.1 ['[', ']']
    (getTab (Simple.build_jump_table ['[', ']'])) rfl

/-! ## Claim theorems: C2, C3, C4, C6, C8 -/

/-- C2: the claim states that in the run-length encoder every bracket
instruction has repeat count exactly 1 and consecutive brackets are never
merged.  Evaluating the encoder of 02_batch.py on the program "[[]]"
disproves it: both bracket runs are merged, each with count 2, so the two
source occurrences of each bracket share a single instruction index. -/
theorem C2_encoder_merges_brackets :
    Batch.parse_code "[[]]".data = [('[', 2), (']', 2)] := by decide

/-- C3 (counterexample): the claim states that a (',', n) instruction
consumes n reads and stores the first character of the n-th read.  In
02_batch.py the ',' arm reads input() exactly once, ignoring the count:
running [(',', 2)] on input lines "A", "B" leaves cell 0 at 65 (the code
of 'A', the first and only read) with line "B" unconsumed, not 66 with
all input consumed as the claim requires. -/
theorem C3_count_reads_counterexample :
    resCell0 (Batch.run 10 false [(',', 2)] [['A'], ['B']]) = 65 ∧
    resInp (Batch.run 10 false [(',', 2)] [['A'], ['B']]) = [['B']] ∧
    ¬(resCell0 (Batch.run 10 false [(',', 2)] [['A'], ['B']]) = 66 ∧
      resInp (Batch.run 10 false [(',', 2)] [['A'], ['B']]) = []) := by decide

/-- C3 (amended): in run-length mode, executing a ',' instruction with any
repeat count n consumes exactly one read from the input source, and the
current cell receives the numeric code (mod 256) of the first character
of that single read; output is unchanged and ip advances by 1. -/
theorem C3_comma_consumes_one_read (ops : List (Char × Nat)) (jt : Tab)
    (dbg : Bool) (s : St) (n : Nat) (c : Char) (line : List Char)
    (restInp : List (List Char))
    (hcmd : ops.getD s.ip (' ', 0) = (',', n))
    (hinp : s.inp = (c :: line) :: restInp) :
    Batch.step ops jt dbg s =
      .ok (finish dbg ','
        { s with tape := updT s.tape s.ptr (c.toNat % 256), inp := restInp }) :=
  Batch.step_comma_ok_rle ops jt dbg s n c line restInp hcmd hinp

/-- Witness for C3_comma_consumes_one_read at the instruction (',', 3) in
the fresh state with input lines "A", "B". -/
theorem C3_comma_consumes_one_read_witness :
    ([((',' : Char), 3)].getD (initSt [['A'], ['B']]).ip (' ', 0) = (',', 3)) ∧
    ((initSt [['A'], ['B']]).inp = ('A' :: []) :: [['B']]) ∧
    (Batch.step [((',' : Char), 3)] emptyJ false (initSt [['A'], ['B']]) =
      .ok (finish false ','
        { initSt [['A'], ['B']] with
            tape := updT (initSt [['A'], ['B']]).tape (initSt [['A'], ['B']]).ptr
              ('A'.toNat % 256),
            inp := [['B']] })) :=
  ⟨by decide, rfl,
    C3_comma_consumes_one_read [((',' : Char), 3)] emptyJ false
      (initSt [['A'], ['B']]) 3 'A' [] [['B']] (by decide) rfl⟩

/-- C4: jump-table construction on the direct (per-character) instruction
sequence behaves exactly as the claim states: "]" fails with an unmatched
close bracket at index 0, "[" and "[[]" fail with an unmatched open
bracket at index 0, before execution and with no output.  But the claim
also covers 02_batch.py, and there it fails: parse_code merges the two
leading brackets of "[[]" into ('[', 2), so its jump-table construction
sees a balanced sequence and succeeds with no error at all. -/
theorem C4_unbalanced_detection :
    buildErr (Simple.build_jump_table "]".data) = some (.unmatchedClose 0) ∧
    buildErr (Simple.build_jump_table "[".data) = some (.unmatchedOpen 0) ∧
    buildErr (Simple.build_jump_table "[[]".data) = some (.unmatchedOpen 0) ∧
    resSyn (Simple.run 10 false "]".data []) = some (.unmatchedClose 0) ∧
    resOutAll (Simple.run 10 false "]".data []) = [] ∧
    Batch.parse_code "[[]".data = [('[', 2), (']', 1)] ∧
    buildErr (Batch.build_jump_table (Batch.parse_code "[[]".data)) = none := by
  decide

/-- C6: tape indexing and cell arithmetic wrap: from the initial state,
one '<' sets the pointer to 29999 = tape_length - 1; 256 consecutive '+'
return the cell to 0; and every successful step keeps the pointer inside
[0, tape_length) and every cell value inside [0, 256). -/
theorem C6_wraparound_invariants :
    resPtr (Simple.run 10 false (Simple.parse_code "<".data) []) = 29999 ∧
    resIsOk (Simple.run 300 false (List.replicate 256 '+') []) = true ∧
    resCell0 (Simple.run 300 false (List.replicate 256 '+') []) = 0 ∧
    (∀ code jt dbg s s2, 0 ≤ s.ptr → s.ptr < tapeLen → (∀ i, s.tape i < 256) →
      Simple.step code jt dbg s = .ok s2 →
      0 ≤ s2.ptr ∧ s2.ptr < tapeLen ∧ ∀ i, s2.tape i < 256) :=
  ⟨by decide, by decide, by decide, step_preserves_inv⟩

/-- Witness for C6_wraparound_invariants: the invariant hypotheses hold in
the fresh state and are preserved by the first step of the program "+". -/
theorem C6_wraparound_invariants_witness :
    (0 ≤ (initSt []).ptr ∧ (initSt []).ptr < tapeLen ∧
      (∀ i, (initSt []).tape i < 256)) ∧
    (0 ≤ (stRof (Simple.step ['+'] emptyJ false (initSt []))).ptr ∧
      (stRof (Simple.step ['+'] emptyJ false (initSt []))).ptr < tapeLen ∧
      ∀ i, (stRof (Simple.step ['+'] emptyJ false (initSt []))).tape i < 256) :=
  ⟨⟨by decide, by decide, fun i => by show (0 : Nat) < 256; decide⟩,
    C6_wraparound_invariants.2.2.2 ['+'] emptyJ false (initSt []) _
      (by decide) (by decide) (fun i => by show (0 : Nat) < 256; decide) rfl⟩

/-! ## Debug tracing (claim C5) -/

/-- A debug-mode step is the plain step plus one trace record, appended
exactly when the iteration did not take a bracket jump (the source's
continue statements skip the debug print). -/
theorem step_trace (code : List Char) (jt : Tab) (s : St) :
    Simple.step code jt true s =
      addTrace (code.getD s.ip ' ') s (Simple.step code jt false s) := by
  rcases cmd_cases (code.getD s.ip ' ') with hc | hc | hc | hc | hc | hc | hc | hc | hc
  · rw [Simple.step_gt code jt true s hc, Simple.step_gt code jt false s hc, hc]; rfl
  · rw [Simple.step_lt code jt true s hc, Simple.step_lt code jt false s hc, hc]; rfl
  · rw [Simple.step_plus code jt true s hc, Simple.step_plus code jt false s hc, hc]; rfl
  · rw [Simple.step_minus code jt true s hc, Simple.step_minus code jt false s hc, hc]; rfl
  · rcases hs : s.inp with _ | ⟨line, restInp⟩
    · rw [Simple.step_comma_empty code jt true s hc hs,
        Simple.step_comma_empty code jt false s hc hs, hc]; rfl
    · rcases hl : line with _ | ⟨c, tl⟩
      · rw [hl] at hs
        rw [Simple.step_comma_emptyline code jt true s restInp hc hs,
          Simple.step_comma_emptyline code jt false s restInp hc hs, hc]; rfl
      · rw [hl] at hs
        rw [Simple.step_comma_ok code jt true s c tl restInp hc hs,
          Simple.step_comma_ok code jt false s c tl restInp hc hs, hc]; rfl
  · rw [Simple.step_dot code jt true s hc, Simple.step_dot code jt false s hc, hc]; rfl
  · by_cases hz : s.tape s.ptr = 0
    · rcases hj : jt s.ip with _ | tgt
      · rw [Simple.step_lbrack_key code jt true s hc hz hj,
          Simple.step_lbrack_key code jt false s hc hz hj, hc]; rfl
      · rw [Simple.step_lbrack_jump code jt true s tgt hc hz hj,
          Simple.step_lbrack_jump code jt false s tgt hc hz hj, hc]
        simp only [addTrace]
        rw [hz]
        rfl
    · obtain ⟨m, hm⟩ := Nat.exists_eq_succ_of_ne_zero hz
      rw [Simple.step_lbrack_fall code jt true s m hc hm,
        Simple.step_lbrack_fall code jt false s m hc hm, hc]
      simp only [addTrace]
      rw [hm]
      rfl
  · by_cases hz : s.tape s.ptr = 0
    · rw [Simple.step_rbrack_fall code jt true s hc hz,
        Simple.step_rbrack_fall code jt false s hc hz, hc]
      simp only [addTrace]
      rw [hz]
      rfl
    · obtain ⟨m, hm⟩ := Nat.exists_eq_succ_of_ne_zero hz
      rcases hj : jt s.ip with _ | tgt
      · rw [Simple.step_rbrack_key code jt true s m hc hm hj,
          Simple.step_rbrack_key code jt false s m hc hm hj, hc]; rfl
      · rw [Simple.step_rbrack_jump code jt true s m tgt hc hm hj,
          Simple.step_rbrack_jump code jt false s m tgt hc hm hj, hc]
        simp only [addTrace]
        rw [hm]
        rfl
  · rw [Simple.step_other code jt true s hc, Simple.step_other code jt false s hc]
    have hjf : jumped (code.getD s.ip ' ') (s.tape s.ptr) = false := by
      obtain ⟨-, -, -, -, -, -, h7, h8⟩ := isOp_false_ne _ hc
      simp only [jumped, Bool.or_eq_false_iff, Bool.and_eq_false_iff]
      constructor
      · left; simpa using h7
      · left; simpa using h8
    simp only [addTrace, hjf]
    rfl

/-- Modulo the trace, any step result is the non-debug step of the
trace-erased state: tracing affects nothing but the trace. -/
theorem step_sans_canon (code : List Char) (jt : Tab) (d : Bool) (s : St) :
    stepSans (Simple.step code jt d s) =
      stepSans (Simple.step code jt false (sansTr s)) := by
  rcases cmd_cases (code.getD s.ip ' ') with hc | hc | hc | hc | hc | hc | hc | hc | hc
  · rw [Simple.step_gt code jt d s hc, Simple.step_gt code jt false (sansTr s) hc]
    cases d <;> rfl
  · rw [Simple.step_lt code jt d s hc, Simple.step_lt code jt false (sansTr s) hc]
    cases d <;> rfl
  · rw [Simple.step_plus code jt d s hc, Simple.step_plus code jt false (sansTr s) hc]
    cases d <;> rfl
  · rw [Simple.step_minus code jt d s hc, Simple.step_minus code jt false (sansTr s) hc]
    cases d <;> rfl
  · rcases hs : s.inp with _ | ⟨line, restInp⟩
    · rw [Simple.step_comma_empty code jt d s hc hs,
        Simple.step_comma_empty code jt false (sansTr s) hc hs]
      rfl
    · rcases hl : line with _ | ⟨c, tl⟩
      · rw [hl] at hs
        rw [Simple.step_comma_emptyline code jt d s restInp hc hs,
          Simple.step_comma_emptyline code jt false (sansTr s) restInp hc hs]
        rfl
      · rw [hl] at hs
        rw [Simple.step_comma_ok code jt d s c tl restInp hc hs,
          Simple.step_comma_ok code jt false (sansTr s) c tl restInp hc hs]
        cases d <;> rfl
  · rw [Simple.step_dot code jt d s hc, Simple.step_dot code jt false (sansTr s) hc]
    cases d <;> rfl
  · by_cases hz : s.tape s.ptr = 0
    · rcases hj : jt s.ip with _ | tgt
      · rw [Simple.step_lbrack_key code jt d s hc hz hj,
          Simple.step_lbrack_key code jt false (sansTr s) hc hz hj]
        rfl
      · rw [Simple.step_lbrack_jump code jt d s tgt hc hz hj,
          Simple.step_lbrack_jump code jt false (sansTr s) tgt hc hz hj]
        rfl
    · obtain ⟨m, hm⟩ := Nat.exists_eq_succ_of_ne_zero hz
      rw [Simple.step_lbrack_fall code jt d s m hc hm,
        Simple.step_lbrack_fall code jt false (sansTr s) m hc hm]
      cases d <;> rfl
  · by_cases hz : s.tape s.ptr = 0
    · rw [Simple.step_rbrack_fall code jt d s hc hz,
        Simple.step_rbrack_fall code jt false (sansTr s) hc hz]
      cases d <;> rfl
    · obtain ⟨m, hm⟩ := Nat.exists_eq_succ_of_ne_zero hz
      rcases hj : jt s.ip with _ | tgt
      · rw [Simple.step_rbrack_key code jt d s m hc hm hj,
          Simple.step_rbrack_key code jt false (sansTr s) m hc hm hj]
        rfl
      · rw [Simple.step_rbrack_jump code jt d s m tgt hc hm hj,
          Simple.step_rbrack_jump code jt false (sansTr s) m tgt hc hm hj]
        rfl
  · rw [Simple.step_other code jt d s hc, Simple.step_other code jt false (sansTr s) hc]
    cases d <;> rfl

/-- Modulo the trace, the whole loop is independent of the debug flag. -/
theorem loop_sans (code : List Char) (jt : Tab) (d1 d2 : Bool) :
    ∀ (f : Nat) (s t : St), sansTr s = sansTr t →
      resSans (Simple.loop code jt d1 f s) =
        resSans (Simple.loop code jt d2 f t) := by
  intro f
  induction f with
  | zero => intro s t h; rfl
  | succ f ih =>
    intro s t h
    have hip : s.ip = t.ip := by
      have h2 := congrArg St.ip h
      exact h2
    have hstep : stepSans (Simple.step code jt d1 s) =
        stepSans (Simple.step code jt d2 t) := by
      rw [step_sans_canon code jt d1 s, step_sans_canon code jt d2 t, h]
    unfold Simple.loop
    by_cases hlt : s.ip < code.length
    · rw [if_pos hlt, if_pos (hip ▸ hlt)]
      rcases e1 : Simple.step code jt d1 s with s1 | ⟨er1, s1⟩ <;>
        rcases e2 : Simple.step code jt d2 t with t1 | ⟨er2, t1⟩
      · rw [e1, e2] at hstep
        have hst : sansTr s1 = sansTr t1 := by simpa [stepSans] using hstep
        exact ih s1 t1 hst
      · rw [e1, e2] at hstep; simp [stepSans] at hstep
      · rw [e1, e2] at hstep; simp [stepSans] at hstep
      · rw [e1, e2] at hstep
        have her : er1 = er2 ∧ sansTr s1 = sansTr t1 := by
          simpa [stepSans] using hstep
        rw [her.1]
        simp [resSans, her.2]
    · rw [if_neg hlt, if_neg (hip ▸ hlt)]
      simp [resSans, h]

/-- Batch analog of step_trace: a debug-mode batch step is the plain batch
step plus one trace record, appended exactly when the iteration did not
take a bracket jump (the source's continue statements skip the debug
print in 02_batch.py as well). -/
theorem step_trace_rle (ops : List (Char × Nat)) (jt : Tab) (s : St) :
    Batch.step ops jt true s =
      addTrace (ops.getD s.ip (' ', 0)).1 s (Batch.step ops jt false s) := by
  have hpair : ops.getD s.ip (' ', 0) =
      ((ops.getD s.ip (' ', 0)).1, (ops.getD s.ip (' ', 0)).2) := rfl
  rcases cmd_cases (ops.getD s.ip (' ', 0)).1 with hc | hc | hc | hc | hc | hc | hc | hc | hc
  · have h9 : ops.getD s.ip (' ', 0) = ('>', (ops.getD s.ip (' ', 0)).2) := by
      rw [hpair, hc]
    rw [Batch.step_gt_rle ops jt true s _ h9, Batch.step_gt_rle ops jt false s _ h9, hc]
    rfl
  · have h9 : ops.getD s.ip (' ', 0) = ('<', (ops.getD s.ip (' ', 0)).2) := by
      rw [hpair, hc]
    rw [Batch.step_lt_rle ops jt true s _ h9, Batch.step_lt_rle ops jt false s _ h9, hc]
    rfl
  · have h9 : ops.getD s.ip (' ', 0) = ('+', (ops.getD s.ip (' ', 0)).2) := by
      rw [hpair, hc]
    rw [Batch.step_plus_rle ops jt true s _ h9, Batch.step_plus_rle ops jt false s _ h9, hc]
    rfl
  · have h9 : ops.getD s.ip (' ', 0) = ('-', (ops.getD s.ip (' ', 0)).2) := by
      rw [hpair, hc]
    rw [Batch.step_minus_rle ops jt true s _ h9, Batch.step_minus_rle ops jt false s _ h9, hc]
    rfl
  · have h9 : ops.getD s.ip (' ', 0) = (',', (ops.getD s.ip (' ', 0)).2) := by
      rw [hpair, hc]
    rcases hs : s.inp with _ | ⟨line, restInp⟩
    · rw [Batch.step_comma_empty_rle ops jt true s _ h9 hs,
        Batch.step_comma_empty_rle ops jt false s _ h9 hs]
      rfl
    · rcases hl : line with _ | ⟨c, tl⟩
      · rw [hl] at hs
        rw [Batch.step_comma_emptyline_rle ops jt true s _ restInp h9 hs,
          Batch.step_comma_emptyline_rle ops jt false s _ restInp h9 hs]
        rfl
      · rw [hl] at hs
        rw [Batch.step_comma_ok_rle ops jt true s _ c tl restInp h9 hs,
          Batch.step_comma_ok_rle ops jt false s _ c tl restInp h9 hs, hc]
        rfl
  · have h9 : ops.getD s.ip (' ', 0) = ('.', (ops.getD s.ip (' ', 0)).2) := by
      rw [hpair, hc]
    rw [Batch.step_dot_rle ops jt true s _ h9, Batch.step_dot_rle ops jt false s _ h9, hc]
    rfl
  · have h9 : ops.getD s.ip (' ', 0) = ('[', (ops.getD s.ip (' ', 0)).2) := by
      rw [hpair, hc]
    by_cases hz : s.tape s.ptr = 0
    · rcases hj : jt s.ip with _ | tgt
      · rw [Batch.step_lbrack_key_rle ops jt true s _ h9 hz hj,
          Batch.step_lbrack_key_rle ops jt false s _ h9 hz hj]
        rfl
      · rw [Batch.step_lbrack_jump_rle ops jt true s _ tgt h9 hz hj,
          Batch.step_lbrack_jump_rle ops jt false s _ tgt h9 hz hj, hc]
        simp only [addTrace]
        rw [hz]
        rfl
    · obtain ⟨m, hm⟩ := Nat.exists_eq_succ_of_ne_zero hz
      rw [Batch.step_lbrack_fall_rle ops jt true s _ m h9 hm,
        Batch.step_lbrack_fall_rle ops jt false s _ m h9 hm, hc]
      simp only [addTrace]
      rw [hm]
      rfl
  · have h9 : ops.getD s.ip (' ', 0) = (']', (ops.getD s.ip (' ', 0)).2) := by
      rw [hpair, hc]
    by_cases hz : s.tape s.ptr = 0
    · rw [Batch.step_rbrack_fall_rle ops jt true s _ h9 hz,
        Batch.step_rbrack_fall_rle ops jt false s _ h9 hz, hc]
      simp only [addTrace]
      rw [hz]
      rfl
    · obtain ⟨m, hm⟩ := Nat.exists_eq_succ_of_ne_zero hz
      rcases hj : jt s.ip with _ | tgt
      · rw [Batch.step_rbrack_key_rle ops jt true s _ m h9 hm hj,
          Batch.step_rbrack_key_rle ops jt false s _ m h9 hm hj]
        rfl
      · rw [Batch.step_rbrack_jump_rle ops jt true s _ m tgt h9 hm hj,
          Batch.step_rbrack_jump_rle ops jt false s _ m tgt h9 hm hj, hc]
        simp only [addTrace]
        rw [hm]
        rfl
  · rw [Batch.step_invalid ops jt true s _ _ hpair hc,
      Batch.step_invalid ops jt false s _ _ hpair hc]
    rfl

/-- Batch analog of step_sans_canon: modulo the trace, any batch step
result is the non-debug step of the trace-erased state. -/
theorem step_sans_canon_rle (ops : List (Char × Nat)) (jt : Tab) (d : Bool) (s : St) :
    stepSans (Batch.step ops jt d s) =
      stepSans (Batch.step ops jt false (sansTr s)) := by
  have hpair : ops.getD s.ip (' ', 0) =
      ((ops.getD s.ip (' ', 0)).1, (ops.getD s.ip (' ', 0)).2) := rfl
  rcases cmd_cases (ops.getD s.ip (' ', 0)).1 with hc | hc | hc | hc | hc | hc | hc | hc | hc
  · have h9 : ops.getD s.ip (' ', 0) = ('>', (ops.getD s.ip (' ', 0)).2) := by
      rw [hpair, hc]
    rw [Batch.step_gt_rle ops jt d s _ h9, Batch.step_gt_rle ops jt false (sansTr s) _ h9]
    cases d <;> rfl
  · have h9 : ops.getD s.ip (' ', 0) = ('<', (ops.getD s.ip (' ', 0)).2) := by
      rw [hpair, hc]
    rw [Batch.step_lt_rle ops jt d s _ h9, Batch.step_lt_rle ops jt false (sansTr s) _ h9]
    cases d <;> rfl
  · have h9 : ops.getD s.ip (' ', 0) = ('+', (ops.getD s.ip (' ', 0)).2) := by
      rw [hpair, hc]
    rw [Batch.step_plus_rle ops jt d s _ h9,
      Batch.step_plus_rle ops jt false (sansTr s) _ h9]
    cases d <;> rfl
  · have h9 : ops.getD s.ip (' ', 0) = ('-', (ops.getD s.ip (' ', 0)).2) := by
      rw [hpair, hc]
    rw [Batch.step_minus_rle ops jt d s _ h9,
      Batch.step_minus_rle ops jt false (sansTr s) _ h9]
    cases d <;> rfl
  · have h9 : ops.getD s.ip (' ', 0) = (',', (ops.getD s.ip (' ', 0)).2) := by
      rw [hpair, hc]
    rcases hs : s.inp with _ | ⟨line, restInp⟩
    · rw [Batch.step_comma_empty_rle ops jt d s _ h9 hs,
        Batch.step_comma_empty_rle ops jt false (sansTr s) _ h9 hs]
      rfl
    · rcases hl : line with _ | ⟨c, tl⟩
      · rw [hl] at hs
        rw [Batch.step_comma_emptyline_rle ops jt d s _ restInp h9 hs,
          Batch.step_comma_emptyline_rle ops jt false (sansTr s) _ restInp h9 hs]
        rfl
      · rw [hl] at hs
        rw [Batch.step_comma_ok_rle ops jt d s _ c tl restInp h9 hs,
          Batch.step_comma_ok_rle ops jt false (sansTr s) _ c tl restInp h9 hs]
        cases d <;> rfl
  · have h9 : ops.getD s.ip (' ', 0) = ('.', (ops.getD s.ip (' ', 0)).2) := by
      rw [hpair, hc]
    rw [Batch.step_dot_rle ops jt d s _ h9, Batch.step_dot_rle ops jt false (sansTr s) _ h9]
    cases d <;> rfl
  · have h9 : ops.getD s.ip (' ', 0) = ('[', (ops.getD s.ip (' ', 0)).2) := by
      rw [hpair, hc]
    by_cases hz : s.tape s.ptr = 0
    · rcases hj : jt s.ip with _ | tgt
      · rw [Batch.step_lbrack_key_rle ops jt d s _ h9 hz hj,
          Batch.step_lbrack_key_rle ops jt false (sansTr s) _ h9 hz hj]
        rfl
      · rw [Batch.step_lbrack_jump_rle ops jt d s _ tgt h9 hz hj,
          Batch.step_lbrack_jump_rle ops jt false (sansTr s) _ tgt h9 hz hj]
        rfl
    · obtain ⟨m, hm⟩ := Nat.exists_eq_succ_of_ne_zero hz
      rw [Batch.step_lbrack_fall_rle ops jt d s _ m h9 hm,
        Batch.step_lbrack_fall_rle ops jt false (sansTr s) _ m h9 hm]
      cases d <;> rfl
  · have h9 : ops.getD s.ip (' ', 0) = (']', (ops.getD s.ip (' ', 0)).2) := by
      rw [hpair, hc]
    by_cases hz : s.tape s.ptr = 0
    · rw [Batch.step_rbrack_fall_rle ops jt d s _ h9 hz,
        Batch.step_rbrack_fall_rle ops jt false (sansTr s) _ h9 hz]
      cases d <;> rfl
    · obtain ⟨m, hm⟩ := Nat.exists_eq_succ_of_ne_zero hz
      rcases hj : jt s.ip with _ | tgt
      · rw [Batch.step_rbrack_key_rle ops jt d s _ m h9 hm hj,
          Batch.step_rbrack_key_rle ops jt false (sansTr s) _ m h9 hm hj]
        rfl
      · rw [Batch.step_rbrack_jump_rle ops jt d s _ m tgt h9 hm hj,
          Batch.step_rbrack_jump_rle ops jt false (sansTr s) _ m tgt h9 hm hj]
        rfl
  · rw [Batch.step_invalid ops jt d s _ _ hpair hc,
      Batch.step_invalid ops jt false (sansTr s) _ _ hpair hc]
    rfl

/-- Batch analog of loop_sans: modulo the trace, the whole batch loop is
independent of the debug flag. -/
theorem loop_sans_rle (ops : List (Char × Nat)) (jt : Tab) (d1 d2 : Bool) :
    ∀ (f : Nat) (s t : St), sansTr s = sansTr t →
      resSans (Batch.loop ops jt d1 f s) =
        resSans (Batch.loop ops jt d2 f t) := by
  intro f
  induction f with
  | zero => intro s t h; rfl
  | succ f ih =>
    intro s t h
    have hip : s.ip = t.ip := by
      have h2 := congrArg St.ip h
      exact h2
    have hstep : stepSans (Batch.step ops jt d1 s) =
        stepSans (Batch.step ops jt d2 t) := by
      rw [step_sans_canon_rle ops jt d1 s, step_sans_canon_rle ops jt d2 t, h]
    unfold Batch.loop
    by_cases hlt : s.ip < ops.length
    · rw [if_pos hlt, if_pos (hip ▸ hlt)]
      rcases e1 : Batch.step ops jt d1 s with s1 | ⟨er1, s1⟩ <;>
        rcases e2 : Batch.step ops jt d2 t with t1 | ⟨er2, t1⟩
      · rw [e1, e2] at hstep
        have hst : sansTr s1 = sansTr t1 := by simpa [stepSans] using hstep
        exact ih s1 t1 hst
      · rw [e1, e2] at hstep; simp [stepSans] at hstep
      · rw [e1, e2] at hstep; simp [stepSans] at hstep
      · rw [e1, e2] at hstep
        have her : er1 = er2 ∧ sansTr s1 = sansTr t1 := by
          simpa [stepSans] using hstep
        rw [her.1]
        simp [resSans, her.2]
    · rw [if_neg hlt, if_neg (hip ▸ hlt)]
      simp [resSans, h]

/-- C5 (counterexample): with debug on, running "[]" through either
interpreter executes two instructions (the '[' jumps over the loop body,
the ']' falls through), but only one trace record is emitted — the
jumping '[' at ip 0 leaves no record because the source's continue skips
the debug print.  The claim's "after every executed instruction,
including instructions whose bracket condition caused a jump" predicts
two records. -/
theorem C5_jumping_brackets_skip_trace :
    (resSteps (Simple.run 10 true "[]".data []) = 2 ∧
      resTrace (Simple.run 10 true "[]".data []) =
        [{ ip := 1, cmd := ']', ptr := 0, cell := 0 }]) ∧
    (resSteps (Batch.run 10 true (Batch.parse_code "[]".data) []) = 2 ∧
      resTrace (Batch.run 10 true (Batch.parse_code "[]".data) []) =
        [{ ip := 1, cmd := ']', ptr := 0, cell := 0 }]) := by decide

/-- C5 (amended): in both interpreters, with debug mode enabled, a trace
record (ip, instruction, ptr, tape[ptr]) is emitted after every executed
instruction except those whose bracket condition caused a jump (the jump
skips the trace), and emitting the trace has no effect on control flow or
on any part of the state other than the trace itself: erasing traces, a
run with debug on equals the same run with debug off. -/
theorem C5_trace_pure_observation :
    (∀ (code : List Char) (jt : Tab) (s : St),
      Simple.step code jt true s =
        addTrace (code.getD s.ip ' ') s (Simple.step code jt false s)) ∧
    (∀ (fuel : Nat) (d1 d2 : Bool) (code : List Char) (inp : List (List Char)),
      resSans (Simple.run fuel d1 code inp) =
        resSans (Simple.run fuel d2 code inp)) ∧
    (∀ (ops : List (Char × Nat)) (jt : Tab) (s : St),
      Batch.step ops jt true s =
        addTrace (ops.getD s.ip (' ', 0)).1 s (Batch.step ops jt false s)) ∧
    (∀ (fuel : Nat) (d1 d2 : Bool) (ops : List (Char × Nat)) (inp : List (List Char)),
      resSans (Batch.run fuel d1 ops inp) =
        resSans (Batch.run fuel d2 ops inp)) := by
  refine ⟨step_trace, ?_, step_trace_rle, ?_⟩
  · intro fuel d1 d2 code inp
    unfold Simple.run
    rcases hb : Simple.build_jump_table code with e | jt
    · rfl
    · exact loop_sans code jt d1 d2 fuel (initSt inp) (initSt inp) rfl
  · intro fuel d1 d2 ops inp
    unfold Batch.run
    rcases hb : Batch.build_jump_table ops with e | jt
    · rfl
    · exact loop_sans_rle ops jt d1 d2 fuel (initSt inp) (initSt inp) rfl

/-- C8: the program "++>+++++[<+>-]<." runs to completion from the all-zero
state, leaves the first tape cell at 7, and writes exactly the single
character with code 7 to the output sink. -/
theorem C8_end_to_end_seven :
    resIsOk (Simple.run 200 false (Simple.parse_code "++>+++++[<+>-]<.".data) []) = true ∧
    resCell0 (Simple.run 200 false (Simple.parse_code "++>+++++[<+>-]<.".data) []) = 7 ∧
    resOutAll (Simple.run 200 false (Simple.parse_code "++>+++++[<+>-]<.".data) []) =
      [Char.ofNat 7] := by decide

end BF

namespace BF

/-! ## The run-length encoder and the default match arm (claims C9, C10, C1) -/

theorem getD_mem {α : Type} (l : List α) (d : α) :
    ∀ i, i < l.length → l.getD i d ∈ l := by
  induction l with
  | nil => intro i h; simp at h
  | cons x xs ih =>
    intro i h
    cases i with
    | zero => exact List.mem_cons_self _ _
    | succ i =>
      simp only [List.getD_cons_succ]
      exact List.mem_cons.mpr (Or.inr (ih i (by simpa using h)))

namespace Batch

theorem parseAux_cons_op_none (c : Char) (rest : List Char) (k : Nat)
    (hc : isOp c = true) :
    parseAux (c :: rest) none k = parseAux rest (some c) 1 := by
  simp only [parseAux]; rw [hc]; rfl

theorem parseAux_cons_op_same (c : Char) (rest : List Char) (k : Nat)
    (hc : isOp c = true) :
    parseAux (c :: rest) (some c) k = parseAux rest (some c) (k + 1) := by
  simp only [parseAux]; rw [hc]; rfl

theorem parseAux_cons_op_diff (c l : Char) (rest : List Char) (k : Nat)
    (hc : isOp c = true) (hne : ¬(c = l)) :
    parseAux (c :: rest) (some l) k = (l, k) :: parseAux rest (some c) 1 := by
  simp only [parseAux]; rw [hc]
  rw [if_pos rfl, if_neg hne]

theorem parseAux_cons_nonop (c : Char) (rest : List Char) (acc : Option Char)
    (k : Nat) (hc : isOp c = false) :
    parseAux (c :: rest) acc k = parseAux rest acc k := by
  simp only [parseAux]; rw [hc]; rfl

theorem parseAux_isOp : ∀ (raw : List Char) (acc : Option Char) (k : Nat),
    (∀ l, acc = some l → isOp l = true) →
    ∀ p, p ∈ parseAux raw acc k → isOp p.1 = true := by
  intro raw
  induction raw with
  | nil =>
    intro acc k hacc p hp
    cases acc with
    | none => cases hp
    | some l =>
      rcases List.mem_singleton.mp hp with rfl
      exact hacc l rfl
  | cons c rest ih =>
    intro acc k hacc p hp
    by_cases hc : isOp c = true
    · cases acc with
      | none =>
        rw [parseAux_cons_op_none c rest k hc] at hp
        exact ih (some c) 1 (fun l hl => by cases hl; exact hc) p hp
      | some l =>
        by_cases hcl : c = l
        · subst hcl
          rw [parseAux_cons_op_same c rest k hc] at hp
          exact ih (some c) (k + 1) (fun l hl => by cases hl; exact hc) p hp
        · rw [parseAux_cons_op_diff c l rest k hc hcl] at hp
          rcases List.mem_cons.mp hp with rfl | hp2
          · exact hacc l rfl
          · exact ih (some c) 1 (fun l hl => by cases hl; exact hc) p hp2
    · have hc2 : isOp c = false := by revert hc; cases isOp c <;> simp
      rw [parseAux_cons_nonop c rest acc k hc2] at hp
      exact ih acc k hacc p hp

theorem parse_code_isOp (raw : List Char) :
    ∀ p, p ∈ parse_code raw → isOp p.1 = true :=
  parseAux_isOp raw none 0 (fun l hl => by cases hl)

theorem parseAux_counts : ∀ (raw : List Char) (acc : Option Char) (k : Nat),
    (acc ≠ none → 1 ≤ k) →
    ∀ p, p ∈ parseAux raw acc k → 1 ≤ p.2 := by
  intro raw
  induction raw with
  | nil =>
    intro acc k hacc p hp
    cases acc with
    | none => cases hp
    | some l =>
      rcases List.mem_singleton.mp hp with rfl
      exact hacc (by simp)
  | cons c rest ih =>
    intro acc k hacc p hp
    by_cases hc : isOp c = true
    · cases acc with
      | none =>
        rw [parseAux_cons_op_none c rest k hc] at hp
        exact ih (some c) 1 (fun _ => le_refl 1) p hp
      | some l =>
        by_cases hcl : c = l
        · subst hcl
          rw [parseAux_cons_op_same c rest k hc] at hp
          exact ih (some c) (k + 1) (fun _ => by omega) p hp
        · rw [parseAux_cons_op_diff c l rest k hc hcl] at hp
          rcases List.mem_cons.mp hp with rfl | hp2
          · exact hacc (by simp)
          · exact ih (some c) 1 (fun _ => le_refl 1) p hp2
    · have hc2 : isOp c = false := by revert hc; cases isOp c <;> simp
      rw [parseAux_cons_nonop c rest acc k hc2] at hp
      exact ih acc k hacc p hp

theorem parse_code_counts (raw : List Char) :
    ∀ p, p ∈ parse_code raw → 1 ≤ p.2 :=
  parseAux_counts raw none 0 (fun h => absurd rfl h)

theorem step_no_invalid (ops : List (Char × Nat)) (jt : Tab) (dbg : Bool)
    (s : St) (hops : ∀ p ∈ ops, isOp p.1 = true) (hip : s.ip < ops.length) :
    ∀ er s2, step ops jt dbg s = .err er s2 → er ≠ .invalidInstruction := by
  intro er s2 he
  have hcv : isOp (ops.getD s.ip (' ', 0)).1 = true :=
    hops _ (getD_mem ops (' ', 0) s.ip hip)
  have hpair : ops.getD s.ip (' ', 0) =
      ((ops.getD s.ip (' ', 0)).1, (ops.getD s.ip (' ', 0)).2) := rfl
  rcases cmd_cases (ops.getD s.ip (' ', 0)).1 with hc | hc | hc | hc | hc | hc | hc | hc | hc
  · rw [step_gt_rle ops jt dbg s _ (by rw [hpair, hc])] at he; cases he
  · rw [step_lt_rle ops jt dbg s _ (by rw [hpair, hc])] at he; cases he
  · rw [step_plus_rle ops jt dbg s _ (by rw [hpair, hc])] at he; cases he
  · rw [step_minus_rle ops jt dbg s _ (by rw [hpair, hc])] at he; cases he
  · rcases hs : s.inp with _ | ⟨line, restInp⟩
    · rw [step_comma_empty_rle ops jt dbg s _ (by rw [hpair, hc]) hs] at he
      cases he
      simp
    · rcases hl : line with _ | ⟨ch, tl⟩
      · subst hl
        rw [step_comma_emptyline_rle ops jt dbg s _ restInp (by rw [hpair, hc]) hs] at he
        cases he
        simp
      · subst hl
        rw [step_comma_ok_rle ops jt dbg s _ ch tl restInp (by rw [hpair, hc]) hs] at he
        cases he
  · rw [step_dot_rle ops jt dbg s _ (by rw [hpair, hc])] at he; cases he
  · by_cases hz : s.tape s.ptr = 0
    · rcases hj : jt s.ip with _ | tgt
      · rw [step_lbrack_key_rle ops jt dbg s _ (by rw [hpair, hc]) hz hj] at he
        cases he
        simp
      · rw [step_lbrack_jump_rle ops jt dbg s _ tgt (by rw [hpair, hc]) hz hj] at he
        cases he
    · obtain ⟨m, hm⟩ := Nat.exists_eq_succ_of_ne_zero hz
      rw [step_lbrack_fall_rle ops jt dbg s _ m (by rw [hpair, hc]) hm] at he
      cases he
  · by_cases hz : s.tape s.ptr = 0
    · rw [step_rbrack_fall_rle ops jt dbg s _ (by rw [hpair, hc]) hz] at he
      cases he
    · obtain ⟨m, hm⟩ := Nat.exists_eq_succ_of_ne_zero hz
      rcases hj : jt s.ip with _ | tgt
      · rw [step_rbrack_key_rle ops jt dbg s _ m (by rw [hpair, hc]) hm hj] at he
        cases he
        simp
      · rw [step_rbrack_jump_rle ops jt dbg s _ m tgt (by rw [hpair, hc]) hm hj] at he
        cases he
  · rw [hc] at hcv; cases hcv

theorem loop_no_invalid (ops : List (Char × Nat)) (jt : Tab) (dbg : Bool)
    (hops : ∀ p ∈ ops, isOp p.1 = true) :
    ∀ (f : Nat) (s : St),
      resErr (loop ops jt dbg f s) ≠ some .invalidInstruction := by
  intro f
  induction f with
  | zero => intro s; simp [loop, resErr]
  | succ f ih =>
    intro s
    unfold loop
    by_cases hlt : s.ip < ops.length
    · rw [if_pos hlt]
      rcases e : step ops jt dbg s with s2 | ⟨er, s2⟩
      · exact ih s2
      · have her := step_no_invalid ops jt dbg s hops hlt er s2 e
        simpa [resErr] using her
    · rw [if_neg hlt]
      simp [resErr]

end Batch

/-- C9: for every instruction sequence produced by the run-length encoder
parse_code, the default match arm of the execution loop of 02_batch.py is
unreachable: run never raises RuntimeError (Invalid instruction), whatever
the fuel, input and debug flag. -/
theorem C9_no_invalid_instruction (raw : List Char) (fuel : Nat) (inp : List (List Char))
    (dbg : Bool) :
    resErr (Batch.run fuel dbg (Batch.parse_code raw) inp) ≠
      some .invalidInstruction := by
  unfold Batch.run
  rcases hb : Batch.build_jump_table (Batch.parse_code raw) with e | jt
  · simp [resErr]
  · exact Batch.loop_no_invalid _ jt dbg (Batch.parse_code_isOp raw) fuel (initSt inp)

end BF

namespace BF

theorem drop_eq_getD_cons {α : Type} (l : List α) (d : α) :
    ∀ i, i < l.length → l.drop i = l.getD i d :: l.drop (i + 1) := by
  induction l with
  | nil => intro i h; simp at h
  | cons x xs ih =>
    intro i h
    cases i with
    | zero => simp
    | succ i =>
      simp only [List.drop_succ_cons, List.getD_cons_succ]
      exact ih i (by simpa using h)

theorem buildAux_nobracket :
    ∀ (rest : List Char) (i : Nat) (t : Tab),
      (∀ c ∈ rest, ¬(c = '[') ∧ ¬(c = ']')) →
      Simple.buildAux rest i [] t = .ok t := by
  intro rest
  induction rest with
  | nil => intro i t h; rfl
  | cons c r ih =>
    intro i t h
    have hc := h c (List.mem_cons_self c r)
    simp only [Simple.buildAux]
    rw [if_neg hc.1, if_neg hc.2]
    exact ih (i + 1) t (fun x hx => h x (List.mem_cons.mpr (Or.inr hx)))

theorem loop_nobrackets (code : List Char) (jt : Tab) (dbg : Bool)
    (hnb : ∀ c ∈ code, ¬(c = '[') ∧ ¬(c = ']')) :
    ∀ (f : Nat) (s : St), s.ip ≤ code.length → code.length - s.ip < f →
      (code.drop s.ip).count ',' ≤ s.inp.length →
      (∀ l ∈ s.inp, ¬(l = [])) →
      ∃ s2, Simple.loop code jt dbg f s = .ok s2 ∧
        s2.ip = code.length ∧ s2.steps = s.steps + (code.length - s.ip) := by
  intro f
  induction f with
  | zero => intro s hip hf hcnt hinp; omega
  | succ f ih =>
    intro s hip hf hcnt hinp
    by_cases hlt : s.ip < code.length
    · have hdropc := drop_eq_getD_cons code ' ' s.ip hlt
      have hcmem : code.getD s.ip ' ' ∈ code := getD_mem code ' ' s.ip hlt
      have hcnb := hnb _ hcmem
      have hcount_cons : (code.drop s.ip).count ',' =
          (code.drop (s.ip + 1)).count ',' +
            (if code.getD s.ip ' ' = ',' then 1 else 0) := by
        rw [hdropc, List.count_cons]
        simp [beq_iff_eq]
      have hfin : ∀ s2, ¬(code.getD s.ip ' ' = ',') →
          Simple.step code jt dbg s = .ok s2 →
          s2.ip = s.ip + 1 → s2.steps = s.steps + 1 → s2.inp = s.inp →
          ∃ s3, Simple.loop code jt dbg (f + 1) s = .ok s3 ∧
            s3.ip = code.length ∧
            s3.steps = s.steps + (code.length - s.ip) := by
        intro s2 hnc hstep hip2 hsteps2 hinp2
        have hcc : (code.drop (s.ip + 1)).count ',' ≤ s.inp.length := by
          rw [hcount_cons, if_neg hnc] at hcnt
          omega
        obtain ⟨s3, hl3, hip3, hsteps3⟩ := ih s2 (by omega) (by omega)
          (by rw [hip2, hinp2]; exact hcc) (by rw [hinp2]; exact hinp)
        refine ⟨s3, ?_, hip3, by omega⟩
        unfold Simple.loop
        rw [if_pos hlt, hstep]
        exact hl3
      rcases cmd_cases (code.getD s.ip ' ') with hc | hc | hc | hc | hc | hc | hc | hc | hc
      · exact hfin _ (by rw [hc]; decide) (Simple.step_gt code jt dbg s hc)
          (by simp) (by simp) (by simp)
      · exact hfin _ (by rw [hc]; decide) (Simple.step_lt code jt dbg s hc)
          (by simp) (by simp) (by simp)
      · exact hfin _ (by rw [hc]; decide) (Simple.step_plus code jt dbg s hc)
          (by simp) (by simp) (by simp)
      · exact hfin _ (by rw [hc]; decide) (Simple.step_minus code jt dbg s hc)
          (by simp) (by simp) (by simp)
      · -- comma: input list must be nonempty
        have hcnt1 : (code.drop (s.ip + 1)).count ',' + 1 ≤ s.inp.length := by
          rw [hcount_cons, if_pos hc] at hcnt
          omega
        rcases hsinp : s.inp with _ | ⟨line, restInp⟩
        · rw [hsinp] at hcnt1; simp at hcnt1
        · rcases hline : line with _ | ⟨ch, tl⟩
          · subst hline
            exact absurd rfl
              (hinp [] (by rw [hsinp]; exact List.mem_cons_self _ _))
          · subst hline
            have hstep := Simple.step_comma_ok code jt dbg s ch tl restInp hc hsinp
            have hrlen : (code.drop (s.ip + 1)).count ',' ≤ restInp.length := by
              rw [hsinp] at hcnt1
              simp only [List.length_cons] at hcnt1
              omega
            have hip2 : (finish dbg ','
                { s with tape := updT s.tape s.ptr (ch.toNat % 256),
                         inp := restInp }).ip = s.ip + 1 := by simp
            have hsteps2 : (finish dbg ','
                { s with tape := updT s.tape s.ptr (ch.toNat % 256),
                         inp := restInp }).steps = s.steps + 1 := by simp
            have hinp2 : (finish dbg ','
                { s with tape := updT s.tape s.ptr (ch.toNat % 256),
                         inp := restInp }).inp = restInp := by simp
            obtain ⟨s3, hl3, hip3, hsteps3⟩ := ih
              (finish dbg ','
                { s with tape := updT s.tape s.ptr (ch.toNat % 256),
                         inp := restInp })
              (by omega) (by omega) (by rw [hip2, hinp2]; exact hrlen)
              (by
                rw [hinp2]
                intro l hl
                exact hinp l (by rw [hsinp]; exact List.mem_cons.mpr (Or.inr hl)))
            refine ⟨s3, ?_, hip3, by omega⟩
            unfold Simple.loop
            rw [if_pos hlt, hstep]
            exact hl3
      · exact hfin _ (by rw [hc]; decide) (Simple.step_dot code jt dbg s hc)
          (by simp) (by simp) (by simp)
      · exact absurd hc hcnb.1
      · exact absurd hc hcnb.2
      · have hnc : ¬(code.getD s.ip ' ' = ',') := by
          intro hx
          rw [hx] at hc
          cases hc
        exact hfin _ hnc (Simple.step_other code jt dbg s hc)
          (by simp) (by simp) (by simp)
    · have hip2 : s.ip = code.length := by omega
      refine ⟨s, ?_, hip2, by omega⟩
      unfold Simple.loop
      rw [if_neg hlt]

/-- A bracket-free batch instruction sequence builds the empty jump table
successfully. -/
theorem buildAux_nobracket_rle :
    ∀ (rest : List (Char × Nat)) (i : Nat) (t : Tab),
      (∀ p ∈ rest, ¬(p.1 = '[') ∧ ¬(p.1 = ']')) →
      Batch.buildAux rest i [] t = .ok t := by
  intro rest
  induction rest with
  | nil => intro i t h; rfl
  | cons p r ih =>
    intro i t h
    have hc := h p (List.mem_cons_self p r)
    obtain ⟨c, n⟩ := p
    simp only [Batch.buildAux]
    rw [if_neg hc.1, if_neg hc.2]
    exact ih (i + 1) t (fun x hx => h x (List.mem_cons.mpr (Or.inr hx)))

/-- Batch analog of loop_nobrackets: on a bracket-free sequence of valid
instructions with sufficient input (one nonempty line per ',' instruction,
each ',' reading exactly once whatever its count), the batch loop runs to
ip = length, executing each instruction exactly once. -/
theorem loop_nobrackets_rle (ops : List (Char × Nat)) (jt : Tab) (dbg : Bool)
    (hops : ∀ p ∈ ops, isOp p.1 = true)
    (hnb : ∀ p ∈ ops, ¬(p.1 = '[') ∧ ¬(p.1 = ']')) :
    ∀ (f : Nat) (s : St), s.ip ≤ ops.length → ops.length - s.ip < f →
      ((ops.drop s.ip).map Prod.fst).count ',' ≤ s.inp.length →
      (∀ l ∈ s.inp, ¬(l = [])) →
      ∃ s2, Batch.loop ops jt dbg f s = .ok s2 ∧
        s2.ip = ops.length ∧ s2.steps = s.steps + (ops.length - s.ip) := by
  intro f
  induction f with
  | zero => intro s hip hf hcnt hinp; omega
  | succ f ih =>
    intro s hip hf hcnt hinp
    by_cases hlt : s.ip < ops.length
    · have hdropc := drop_eq_getD_cons ops (' ', 0) s.ip hlt
      have hcmem : ops.getD s.ip (' ', 0) ∈ ops := getD_mem ops (' ', 0) s.ip hlt
      have hcnb := hnb _ hcmem
      have hpair : ops.getD s.ip (' ', 0) =
          ((ops.getD s.ip (' ', 0)).1, (ops.getD s.ip (' ', 0)).2) := rfl
      have hcount_cons : ((ops.drop s.ip).map Prod.fst).count ',' =
          ((ops.drop (s.ip + 1)).map Prod.fst).count ',' +
            (if (ops.getD s.ip (' ', 0)).1 = ',' then 1 else 0) := by
        rw [hdropc]
        simp only [List.map_cons, List.count_cons]
        simp [beq_iff_eq]
      have hfin : ∀ s2, ¬((ops.getD s.ip (' ', 0)).1 = ',') →
          Batch.step ops jt dbg s = .ok s2 →
          s2.ip = s.ip + 1 → s2.steps = s.steps + 1 → s2.inp = s.inp →
          ∃ s3, Batch.loop ops jt dbg (f + 1) s = .ok s3 ∧
            s3.ip = ops.length ∧
            s3.steps = s.steps + (ops.length - s.ip) := by
        intro s2 hnc hstep hip2 hsteps2 hinp2
        have hcc : ((ops.drop (s.ip + 1)).map Prod.fst).count ',' ≤ s.inp.length := by
          rw [hcount_cons, if_neg hnc] at hcnt
          omega
        obtain ⟨s3, hl3, hip3, hsteps3⟩ := ih s2 (by omega) (by omega)
          (by rw [hip2, hinp2]; exact hcc) (by rw [hinp2]; exact hinp)
        refine ⟨s3, ?_, hip3, by omega⟩
        unfold Batch.loop
        rw [if_pos hlt, hstep]
        exact hl3
      rcases cmd_cases (ops.getD s.ip (' ', 0)).1 with hc | hc | hc | hc | hc | hc | hc | hc | hc
      · exact hfin _ (by rw [hc]; decide)
          (Batch.step_gt_rle ops jt dbg s _ (by rw [hpair, hc]))
          (by simp) (by simp) (by simp)
      · exact hfin _ (by rw [hc]; decide)
          (Batch.step_lt_rle ops jt dbg s _ (by rw [hpair, hc]))
          (by simp) (by simp) (by simp)
      · exact hfin _ (by rw [hc]; decide)
          (Batch.step_plus_rle ops jt dbg s _ (by rw [hpair, hc]))
          (by simp) (by simp) (by simp)
      · exact hfin _ (by rw [hc]; decide)
          (Batch.step_minus_rle ops jt dbg s _ (by rw [hpair, hc]))
          (by simp) (by simp) (by simp)
      · -- comma: input list must be nonempty
        have hcnt1 : ((ops.drop (s.ip + 1)).map Prod.fst).count ',' + 1 ≤ s.inp.length := by
          rw [hcount_cons, if_pos hc] at hcnt
          omega
        rcases hsinp : s.inp with _ | ⟨line, restInp⟩
        · rw [hsinp] at hcnt1; simp at hcnt1
        · rcases hline : line with _ | ⟨ch, tl⟩
          · subst hline
            exact absurd rfl
              (hinp [] (by rw [hsinp]; exact List.mem_cons_self _ _))
          · subst hline
            have hstep := Batch.step_comma_ok_rle ops jt dbg s _ ch tl restInp
              (by rw [hpair, hc]) hsinp
            have hrlen : ((ops.drop (s.ip + 1)).map Prod.fst).count ',' ≤ restInp.length := by
              rw [hsinp] at hcnt1
              simp only [List.length_cons] at hcnt1
              omega
            have hip2 : (finish dbg ','
                { s with tape := updT s.tape s.ptr (ch.toNat % 256),
                         inp := restInp }).ip = s.ip + 1 := by simp
            have hsteps2 : (finish dbg ','
                { s with tape := updT s.tape s.ptr (ch.toNat % 256),
                         inp := restInp }).steps = s.steps + 1 := by simp
            have hinp2 : (finish dbg ','
                { s with tape := updT s.tape s.ptr (ch.toNat % 256),
                         inp := restInp }).inp = restInp := by simp
            obtain ⟨s3, hl3, hip3, hsteps3⟩ := ih
              (finish dbg ','
                { s with tape := updT s.tape s.ptr (ch.toNat % 256),
                         inp := restInp })
              (by omega) (by omega) (by rw [hip2, hinp2]; exact hrlen)
              (by
                rw [hinp2]
                intro l hl
                exact hinp l (by rw [hsinp]; exact List.mem_cons.mpr (Or.inr hl)))
            refine ⟨s3, ?_, hip3, by omega⟩
            unfold Batch.loop
            rw [if_pos hlt, hstep]
            exact hl3
      · exact hfin _ (by rw [hc]; decide)
          (Batch.step_dot_rle ops jt dbg s _ (by rw [hpair, hc]))
          (by simp) (by simp) (by simp)
      · exact absurd hc hcnb.1
      · exact absurd hc hcnb.2
      · exact absurd ((hops _ hcmem).symm.trans hc) (by decide)
    · have hip2 : s.ip = ops.length := by omega
      refine ⟨s, ?_, hip2, by omega⟩
      unfold Batch.loop
      rw [if_neg hlt]

/-- C10: in both interpreters the instruction pointer increases by exactly
1 on every successfully executed non-bracket instruction, and hence for
every bracket-free instruction sequence (valid operators, with sufficient
input: one nonempty line per ',' instruction) both execution loops
terminate normally, dispatching each instruction exactly once (the ghost
step counter ends at the program length). -/
theorem C10_bracket_free_terminates :
    (∀ (code : List Char) (jt : Tab) (dbg : Bool) (s s2 : St),
      ¬(code.getD s.ip ' ' = '[') → ¬(code.getD s.ip ' ' = ']') →
      Simple.step code jt dbg s = .ok s2 →
      s2.ip = s.ip + 1 ∧ s2.steps = s.steps + 1) ∧
    (∀ (code : List Char) (dbg : Bool) (fuel : Nat) (inp : List (List Char)),
      (∀ c ∈ code, ¬(c = '[') ∧ ¬(c = ']')) →
      (∀ l ∈ inp, ¬(l = [])) →
      code.count ',' ≤ inp.length →
      code.length < fuel →
      resIsOk (Simple.run fuel dbg code inp) = true ∧
      resIp (Simple.run fuel dbg code inp) = code.length ∧
      resSteps (Simple.run fuel dbg code inp) = code.length) ∧
    (∀ (ops : List (Char × Nat)) (jt : Tab) (dbg : Bool) (s s2 : St),
      ¬((ops.getD s.ip (' ', 0)).1 = '[') → ¬((ops.getD s.ip (' ', 0)).1 = ']') →
      Batch.step ops jt dbg s = .ok s2 →
      s2.ip = s.ip + 1 ∧ s2.steps = s.steps + 1) ∧
    (∀ (ops : List (Char × Nat)) (dbg : Bool) (fuel : Nat) (inp : List (List Char)),
      (∀ p ∈ ops, isOp p.1 = true) →
      (∀ p ∈ ops, ¬(p.1 = '[') ∧ ¬(p.1 = ']')) →
      (∀ l ∈ inp, ¬(l = [])) →
      (ops.map Prod.fst).count ',' ≤ inp.length →
      ops.length < fuel →
      resIsOk (Batch.run fuel dbg ops inp) = true ∧
      resIp (Batch.run fuel dbg ops inp) = ops.length ∧
      resSteps (Batch.run fuel dbg ops inp) = ops.length) := by
  refine ⟨?_, ?_, ?_, ?_⟩
  · intro code jt dbg s s2 h7 h8 hstep
    rcases cmd_cases (code.getD s.ip ' ') with hc | hc | hc | hc | hc | hc | hc | hc | hc
    · rw [Simple.step_gt code jt dbg s hc] at hstep; cases hstep; simp
    · rw [Simple.step_lt code jt dbg s hc] at hstep; cases hstep; simp
    · rw [Simple.step_plus code jt dbg s hc] at hstep; cases hstep; simp
    · rw [Simple.step_minus code jt dbg s hc] at hstep; cases hstep; simp
    · rcases hs : s.inp with _ | ⟨line, restInp⟩
      · rw [Simple.step_comma_empty code jt dbg s hc hs] at hstep; cases hstep
      · rcases hl : line with _ | ⟨ch, tl⟩
        · subst hl
          rw [Simple.step_comma_emptyline code jt dbg s restInp hc hs] at hstep
          cases hstep
        · subst hl
          rw [Simple.step_comma_ok code jt dbg s ch tl restInp hc hs] at hstep
          cases hstep; simp
    · rw [Simple.step_dot code jt dbg s hc] at hstep; cases hstep; simp
    · exact absurd hc h7
    · exact absurd hc h8
    · rw [Simple.step_other code jt dbg s hc] at hstep; cases hstep; simp
  · intro code dbg fuel inp hnb hinp hcnt hfuel
    have hb : Simple.build_jump_table code = .ok emptyJ :=
      buildAux_nobracket code 0 emptyJ hnb
    have hrun : Simple.run fuel dbg code inp =
        Simple.loop code emptyJ dbg fuel (initSt inp) := by
      unfold Simple.run
      rw [hb]
    obtain ⟨s2, hl, hip2, hsteps2⟩ := loop_nobrackets code emptyJ dbg hnb fuel
      (initSt inp) (by simp [initSt]) (by simp only [initSt]; omega)
      (by simpa [initSt] using hcnt) (by simpa [initSt] using hinp)
    rw [hrun, hl]
    refine ⟨rfl, hip2, ?_⟩
    show s2.steps = code.length
    rw [hsteps2]
    simp [initSt]
  · intro ops jt dbg s s2 h7 h8 hstep
    have hpair : ops.getD s.ip (' ', 0) =
        ((ops.getD s.ip (' ', 0)).1, (ops.getD s.ip (' ', 0)).2) := rfl
    rcases cmd_cases (ops.getD s.ip (' ', 0)).1 with hc | hc | hc | hc | hc | hc | hc | hc | hc
    · rw [Batch.step_gt_rle ops jt dbg s _ (by rw [hpair, hc])] at hstep
      cases hstep; simp
    · rw [Batch.step_lt_rle ops jt dbg s _ (by rw [hpair, hc])] at hstep
      cases hstep; simp
    · rw [Batch.step_plus_rle ops jt dbg s _ (by rw [hpair, hc])] at hstep
      cases hstep; simp
    · rw [Batch.step_minus_rle ops jt dbg s _ (by rw [hpair, hc])] at hstep
      cases hstep; simp
    · rcases hs : s.inp with _ | ⟨line, restInp⟩
      · rw [Batch.step_comma_empty_rle ops jt dbg s _ (by rw [hpair, hc]) hs] at hstep
        cases hstep
      · rcases hl : line with _ | ⟨ch, tl⟩
        · subst hl
          rw [Batch.step_comma_emptyline_rle ops jt dbg s _ restInp
            (by rw [hpair, hc]) hs] at hstep
          cases hstep
        · subst hl
          rw [Batch.step_comma_ok_rle ops jt dbg s _ ch tl restInp
            (by rw [hpair, hc]) hs] at hstep
          cases hstep; simp
    · rw [Batch.step_dot_rle ops jt dbg s _ (by rw [hpair, hc])] at hstep
      cases hstep; simp
    · exact absurd hc h7
    · exact absurd hc h8
    · rw [Batch.step_invalid ops jt dbg s _ _ hpair hc] at hstep
      cases hstep
  · intro ops dbg fuel inp hops hnb hinp hcnt hfuel
    have hb : Batch.build_jump_table ops = .ok emptyJ :=
      buildAux_nobracket_rle ops 0 emptyJ hnb
    have hrun : Batch.run fuel dbg ops inp =
        Batch.loop ops emptyJ dbg fuel (initSt inp) := by
      unfold Batch.run
      rw [hb]
    obtain ⟨s2, hl, hip2, hsteps2⟩ := loop_nobrackets_rle ops emptyJ dbg hops hnb fuel
      (initSt inp) (by simp [initSt]) (by simp only [initSt]; omega)
      (by simpa [initSt] using hcnt) (by simpa [initSt] using hinp)
    rw [hrun, hl]
    refine ⟨rfl, hip2, ?_⟩
    show s2.steps = ops.length
    rw [hsteps2]
    simp [initSt]

/-- Witness for C10_bracket_free_terminates: its per-step parts on the
first step of "+" (resp. [('+', 1)]) from the fresh state, and its
loop-level parts on the programs "+." and [('+', 2), ('.', 1)] with empty
input and fuel 3. -/
theorem C10_bracket_free_terminates_witness :
    (¬((['+'] : List Char).getD (initSt []).ip ' ' = '[') ∧
      ¬((['+'] : List Char).getD (initSt []).ip ' ' = ']') ∧
      (stRof (Simple.step ['+'] emptyJ false (initSt []))).ip = (initSt []).ip + 1 ∧
      (stRof (Simple.step ['+'] emptyJ false (initSt []))).steps = (initSt []).steps + 1) ∧
    ((∀ c ∈ (['+', '.'] : List Char), ¬(c = '[') ∧ ¬(c = ']')) ∧
      (∀ l ∈ ([] : List (List Char)), ¬(l = [])) ∧
      (['+', '.'] : List Char).count ',' ≤ ([] : List (List Char)).length ∧
      (['+', '.'] : List Char).length < 3) ∧
    (resIsOk (Simple.run 3 false ['+', '.'] []) = true ∧
      resIp (Simple.run 3 false ['+', '.'] []) = (['+', '.'] : List Char).length ∧
      resSteps (Simple.run 3 false ['+', '.'] []) = (['+', '.'] : List Char).length) ∧
    (¬((([('+', 1)] : List (Char × Nat)).getD (initSt []).ip (' ', 0)).1 = '[') ∧
      ¬((([('+', 1)] : List (Char × Nat)).getD (initSt []).ip (' ', 0)).1 = ']') ∧
      (stRof (Batch.step [('+', 1)] emptyJ false (initSt []))).ip = (initSt []).ip + 1 ∧
      (stRof (Batch.step [('+', 1)] emptyJ false (initSt []))).steps =
        (initSt []).steps + 1) ∧
    ((∀ p ∈ ([('+', 2), ('.', 1)] : List (Char × Nat)), isOp p.1 = true) ∧
      (∀ p ∈ ([('+', 2), ('.', 1)] : List (Char × Nat)), ¬(p.1 = '[') ∧ ¬(p.1 = ']')) ∧
      (∀ l ∈ ([] : List (List Char)), ¬(l = [])) ∧
      (([('+', 2), ('.', 1)] : List (Char × Nat)).map Prod.fst).count ',' ≤
        ([] : List (List Char)).length ∧
      ([('+', 2), ('.', 1)] : List (Char × Nat)).length < 3) ∧
    (resIsOk (Batch.run 3 false [('+', 2), ('.', 1)] []) = true ∧
      resIp (Batch.run 3 false [('+', 2), ('.', 1)] []) =
        ([('+', 2), ('.', 1)] : List (Char × Nat)).length ∧
      resSteps (Batch.run 3 false [('+', 2), ('.', 1)] []) =
        ([('+', 2), ('.', 1)] : List (Char × Nat)).length) :=
  ⟨⟨by decide, by decide,
    C10_bracket_free_terminates.1 ['+'] emptyJ false (initSt [])
      (stRof (Simple.step ['+'] emptyJ false (initSt [])))
      (by decide) (by decide) rfl⟩,
   ⟨by decide, by decide, by decide, by decide⟩,
   C10_bracket_free_terminates.2.1 ['+', '.'] false 3 [] (by decide) (by decide)
     (by decide) (by decide),
   ⟨by decide, by decide,
    C10_bracket_free_terminates.2.2.1 [('+', 1)] emptyJ false (initSt [])
      (stRof (Batch.step [('+', 1)] emptyJ false (initSt [])))
      (by decide) (by decide) rfl⟩,
   ⟨by decide, by decide, by decide, by decide, by decide⟩,
   C10_bracket_free_terminates.2.2.2 [('+', 2), ('.', 1)] false 3 [] (by decide)
     (by decide) (by decide) (by decide) (by decide)⟩

end BF

/-! ## Simulation between the two interpreters (claim C1)

The batch interpreter is related to the direct interpreter by the map
`expand` (run-length decoding) on instruction sequences and by the index
translation `pos` on instruction pointers.  Under the hypothesis that no
merge-sensitive operator run was merged, one batch step corresponds to
`count` direct steps, the jump tables correspond through `pos`, and the
fuel-indexed loops simulate each other in both directions. -/


namespace BF

theorem expand_parseAux : ∀ (raw : List Char) (l : Char) (k : Nat),
    expand (Batch.parseAux raw (some l) k) =
      List.replicate k l ++ Simple.parse_code raw := by
  intro raw
  induction raw with
  | nil =>
    intro l k
    simp [Batch.parseAux, expand, Simple.parse_code]
  | cons c rest ih =>
    intro l k
    by_cases hc : isOp c = true
    · by_cases hcl : c = l
      · subst hcl
        rw [Batch.parseAux_cons_op_same c rest k hc, ih c (k + 1)]
        have hf : Simple.parse_code (c :: rest) = c :: Simple.parse_code rest := by
          simp [Simple.parse_code, List.filter_cons, hc]
        rw [hf, List.replicate_succ']
        simp
      · rw [Batch.parseAux_cons_op_diff c l rest k hc hcl]
        have hf : Simple.parse_code (c :: rest) = c :: Simple.parse_code rest := by
          simp [Simple.parse_code, List.filter_cons, hc]
        rw [hf]
        show List.replicate k l ++ expand (Batch.parseAux rest (some c) 1) = _
        rw [ih c 1]
        simp
    · have hc2 : isOp c = false := by revert hc; cases isOp c <;> simp
      rw [Batch.parseAux_cons_nonop c rest (some l) k hc2, ih l k]
      have hf : Simple.parse_code (c :: rest) = Simple.parse_code rest := by
        simp [Simple.parse_code, List.filter_cons, hc2]
      rw [hf]

theorem expand_parse (raw : List Char) :
    expand (Batch.parse_code raw) = Simple.parse_code raw := by
  unfold Batch.parse_code
  cases raw with
  | nil => rfl
  | cons c rest =>
    by_cases hc : isOp c = true
    · rw [Batch.parseAux_cons_op_none c rest 0 hc, expand_parseAux]
      have hf : Simple.parse_code (c :: rest) = c :: Simple.parse_code rest := by
        simp [Simple.parse_code, List.filter_cons, hc]
      rw [hf]
      simp
    · have hc2 : isOp c = false := by revert hc; cases isOp c <;> simp
      rw [Batch.parseAux_cons_nonop c rest none 0 hc2]
      have hf : Simple.parse_code (c :: rest) = Simple.parse_code rest := by
        simp [Simple.parse_code, List.filter_cons, hc2]
      rw [hf]
      cases rest with
      | nil => rfl
      | cons c2 r2 => exact expand_parse (c2 :: r2)

end BF

namespace BF

theorem noMergeRuns_tail (c : Char) (xs : List Char)
    (h : noMergeRuns (c :: xs) = true) : noMergeRuns xs = true := by
  cases xs with
  | nil => rfl
  | cons c2 r =>
    have : noMergeRuns (c :: c2 :: r) =
        ((!(c == c2 && mergeSensitive c)) && noMergeRuns (c2 :: r)) := rfl
    rw [this, Bool.and_eq_true] at h
    exact h.2

theorem noMergeRuns_sens_two (l : Char) (X : List Char) (k : Nat)
    (hk : 2 ≤ k) (hs : mergeSensitive l = true) :
    noMergeRuns (List.replicate k l ++ X) = false := by
  obtain ⟨k2, rfl⟩ : ∃ k2, k = k2 + 2 := ⟨k - 2, by omega⟩
  have : List.replicate (k2 + 2) l ++ X = l :: l :: (List.replicate k2 l ++ X) := by
    rw [show k2 + 2 = (k2 + 1) + 1 from rfl, List.replicate_succ, List.replicate_succ]
    simp
  rw [this]
  show ((!(l == l && mergeSensitive l)) &&
    noMergeRuns (l :: (List.replicate k2 l ++ X))) = false
  simp [hs]

theorem noMergeRuns_drop_replicate (l : Char) :
    ∀ (k : Nat) (X : List Char),
      noMergeRuns (List.replicate k l ++ X) = true → noMergeRuns X = true := by
  intro k
  induction k with
  | zero => intro X h; simpa using h
  | succ k ih =>
    intro X h
    rw [List.replicate_succ, List.cons_append] at h
    exact ih X (noMergeRuns_tail l _ h)

theorem parseAux_sensOne : ∀ (raw : List Char) (l : Char) (k : Nat),
    1 ≤ k →
    noMergeRuns (List.replicate k l ++ Simple.parse_code raw) = true →
    ∀ p ∈ Batch.parseAux raw (some l) k, mergeSensitive p.1 = true → p.2 = 1 := by
  intro raw
  induction raw with
  | nil =>
    intro l k hk h p hp hsens
    rcases List.mem_singleton.mp hp with rfl
    simp only [Simple.parse_code, List.filter_nil, List.append_nil] at h
    by_contra hne
    have hk2 : 2 ≤ k := by omega
    have := noMergeRuns_sens_two l [] k hk2 hsens
    rw [List.append_nil] at this
    rw [this] at h
    cases h
  | cons c rest ih =>
    intro l k hk h p hp hsens
    by_cases hc : isOp c = true
    · have hf : Simple.parse_code (c :: rest) = c :: Simple.parse_code rest := by
        simp [Simple.parse_code, List.filter_cons, hc]
      by_cases hcl : c = l
      · subst hcl
        rw [Batch.parseAux_cons_op_same c rest k hc] at hp
        have h2 : noMergeRuns (List.replicate (k + 1) c ++
            Simple.parse_code rest) = true := by
          rw [List.replicate_succ']
          rw [hf] at h
          simpa using h
        exact ih c (k + 1) (by omega) h2 p hp hsens
      · rw [Batch.parseAux_cons_op_diff c l rest k hc hcl] at hp
        rcases List.mem_cons.mp hp with rfl | hp2
        · -- the emitted pair (l, k)
          by_contra hne
          have hk2 : 2 ≤ k := by omega
          have := noMergeRuns_sens_two l (Simple.parse_code (c :: rest)) k hk2 hsens
          rw [this] at h
          cases h
        · have h2 : noMergeRuns (List.replicate 1 c ++
              Simple.parse_code rest) = true := by
            have h3 := noMergeRuns_drop_replicate l k _ h
            rw [hf] at h3
            simpa using h3
          exact ih c 1 (le_refl 1) h2 p hp2 hsens
    · have hc2 : isOp c = false := by revert hc; cases isOp c <;> simp
      rw [Batch.parseAux_cons_nonop c rest (some l) k hc2] at hp
      have hf : Simple.parse_code (c :: rest) = Simple.parse_code rest := by
        simp [Simple.parse_code, List.filter_cons, hc2]
      rw [hf] at h
      exact ih l k hk h p hp hsens

theorem parse_sensOne (raw : List Char)
    (h : noMergeRuns (Simple.parse_code raw) = true) :
    ∀ p ∈ Batch.parse_code raw, mergeSensitive p.1 = true → p.2 = 1 := by
  unfold Batch.parse_code
  induction raw with
  | nil => intro p hp; cases hp
  | cons c rest ih =>
    intro p hp hsens
    by_cases hc : isOp c = true
    · rw [Batch.parseAux_cons_op_none c rest 0 hc] at hp
      have hf : Simple.parse_code (c :: rest) = c :: Simple.parse_code rest := by
        simp [Simple.parse_code, List.filter_cons, hc]
      refine parseAux_sensOne rest c 1 (le_refl 1) ?_ p hp hsens
      rw [hf] at h
      simpa using h
    · have hc2 : isOp c = false := by revert hc; cases isOp c <;> simp
      rw [Batch.parseAux_cons_nonop c rest none 0 hc2] at hp
      have hf : Simple.parse_code (c :: rest) = Simple.parse_code rest := by
        simp [Simple.parse_code, List.filter_cons, hc2]
      rw [hf] at h
      exact ih h p hp hsens

end BF

namespace BF

theorem pos_zero (ops : List (Char × Nat)) : pos ops 0 = 0 := by
  cases ops <;> rfl

theorem pos_succ (ops : List (Char × Nat)) :
    ∀ i, i < ops.length →
      pos ops (i + 1) = pos ops i + (ops.getD i (' ', 0)).2 := by
  induction ops with
  | nil => intro i h; simp at h
  | cons p rest ih =>
    intro i hi
    cases i with
    | zero =>
      show p.2 + pos rest 0 = pos (p :: rest) 0 + ((p :: rest).getD 0 (' ', 0)).2
      rw [pos_zero]
      simp [pos]
    | succ i =>
      show p.2 + pos rest (i + 1) = (p.2 + pos rest i) + ((p :: rest).getD (i + 1) (' ', 0)).2
      rw [ih i (by simpa using hi)]
      simp
      omega

theorem pos_le_succ (ops : List (Char × Nat)) : ∀ i, pos ops i ≤ pos ops (i + 1) := by
  induction ops with
  | nil => intro i; cases i <;> simp [pos]
  | cons p rest ih =>
    intro i
    cases i with
    | zero => simp [pos]
    | succ i =>
      show p.2 + pos rest i ≤ p.2 + pos rest (i + 1)
      have := ih i
      omega

theorem pos_mono (ops : List (Char × Nat)) (i j : Nat) (hij : i ≤ j) :
    pos ops i ≤ pos ops j := by
  obtain ⟨k, rfl⟩ := Nat.exists_eq_add_of_le hij
  induction k with
  | zero => simp
  | succ k ihk =>
    calc pos ops i ≤ pos ops (i + k) := ihk (by omega)
    _ ≤ pos ops (i + k + 1) := pos_le_succ ops (i + k)

theorem length_expand (ops : List (Char × Nat)) :
    (expand ops).length = pos ops ops.length := by
  induction ops with
  | nil => rfl
  | cons p rest ih =>
    show (List.replicate p.2 p.1 ++ expand rest).length = p.2 + pos rest rest.length
    simp [ih]

theorem pos_lt_total (ops : List (Char × Nat))
    (hcnt : ∀ p ∈ ops, 1 ≤ p.2) (i : Nat) (h : i < ops.length) :
    pos ops i < pos ops ops.length := by
  have h1 : pos ops i + 1 ≤ pos ops (i + 1) := by
    rw [pos_succ ops i h]
    have := hcnt _ (getD_mem ops (' ', 0) i h)
    omega
  have h2 := pos_mono ops (i + 1) ops.length h
  omega

theorem getD_replicate_lt {α : Type} (a d : α) :
    ∀ (n j : Nat), j < n → (List.replicate n a).getD j d = a := by
  intro n
  induction n with
  | zero => intro j h; omega
  | succ n ih =>
    intro j h
    rw [List.replicate_succ]
    cases j with
    | zero => rfl
    | succ j =>
      simp only [List.getD_cons_succ]
      exact ih j (by omega)

theorem expand_getD (ops : List (Char × Nat)) :
    ∀ (i j : Nat), i < ops.length → j < (ops.getD i (' ', 0)).2 →
      (expand ops).getD (pos ops i + j) ' ' = (ops.getD i (' ', 0)).1 := by
  induction ops with
  | nil => intro i j h; simp at h
  | cons p rest ih =>
    intro i j hi hj
    cases i with
    | zero =>
      show (List.replicate p.2 p.1 ++ expand rest).getD (pos (p :: rest) 0 + j) ' ' = p.1
      rw [pos_zero, Nat.zero_add]
      rw [List.getD_append _ _ _ _ (by simpa using hj)]
      exact getD_replicate_lt p.1 ' ' p.2 j (by simpa using hj)
    | succ i =>
      show (List.replicate p.2 p.1 ++ expand rest).getD ((p.2 + pos rest i) + j) ' ' = (rest.getD i (' ', 0)).1
      have hlen : (List.replicate p.2 p.1).length ≤ p.2 + pos rest i + j := by
        simp
        omega
      rw [List.getD_append_right _ _ _ _ hlen]
      have : p.2 + pos rest i + j - (List.replicate p.2 p.1).length = pos rest i + j := by
        simp
        omega
      rw [this]
      exact ih i j (by simpa using hi) (by simpa using hj)

end BF

namespace BF

theorem pos_strict_mono (ops : List (Char × Nat))
    (hcnt : ∀ p ∈ ops, 1 ≤ p.2) (a b : Nat) (hab : a < b) (hb : b ≤ ops.length) :
    pos ops a < pos ops b := by
  have h1 : pos ops a + 1 ≤ pos ops (a + 1) := by
    rw [pos_succ ops a (by omega)]
    have := hcnt _ (getD_mem ops (' ', 0) a (by omega))
    omega
  have h2 := pos_mono ops (a + 1) b (by omega)
  omega

theorem pos_inj (ops : List (Char × Nat))
    (hcnt : ∀ p ∈ ops, 1 ≤ p.2) (a b : Nat) (ha : a ≤ ops.length)
    (hb : b ≤ ops.length) (hne : ¬(a = b)) : ¬(pos ops a = pos ops b) := by
  rcases Nat.lt_or_ge a b with h | h
  · have := pos_strict_mono ops hcnt a b h hb
    omega
  · have hba : b < a := by omega
    have := pos_strict_mono ops hcnt b a hba ha
    omega

theorem buildAux_replicate_nonbracket (c : Char) (h1 : ¬(c = '[')) (h2 : ¬(c = ']')) :
    ∀ (n : Nat) (X : List Char) (i : Nat) (st : List Nat) (t : Tab),
      Simple.buildAux (List.replicate n c ++ X) i st t =
        Simple.buildAux X (i + n) st t := by
  intro n
  induction n with
  | zero => intro X i st t; simp
  | succ n ih =>
    intro X i st t
    rw [List.replicate_succ, List.cons_append]
    have hs : Simple.buildAux (c :: (List.replicate n c ++ X)) i st t =
        Simple.buildAux (List.replicate n c ++ X) (i + 1) st t := by
      simp only [Simple.buildAux]
      rw [if_neg h1, if_neg h2]
    rw [hs, ih]
    congr 1
    omega

theorem buildCorrAux (ops : List (Char × Nat))
    (hcnt : ∀ p ∈ ops, 1 ≤ p.2)
    (hbr1 : ∀ p ∈ ops, isBracket p.1 = true → p.2 = 1) :
    ∀ (rest : List (Char × Nat)) (i : Nat) (st : List Nat) (tr td : Tab),
      ops.drop i = rest → i ≤ ops.length →
      (∀ o ∈ st, o < i) →
      (∀ j k, tr j = some k → j < i ∧ k < i ∧ td (pos ops j) = some (pos ops k)) →
      BuildCorr ops (Batch.buildAux rest i st tr)
        (Simple.buildAux (expand rest) (pos ops i) (st.map (pos ops)) td) := by
  intro rest
  induction rest with
  | nil =>
    intro i st t_r t_d hdrop hi hst hrel
    cases st with
    | nil =>
      show BuildCorr ops (.ok t_r) (.ok t_d)
      show TabRel ops t_r t_d
      intro j k hjk
      obtain ⟨hj, hk, hd⟩ := hrel j k hjk
      exact ⟨by omega, hd⟩
    | cons o st2 =>
      show BuildCorr ops (.error _) (.error _)
      trivial
  | cons p rest ih =>
    intro i st t_r t_d hdrop hi hst hrel
    obtain ⟨c, n⟩ := p
    obtain ⟨hgd, hdrop2, hilt⟩ := drop_cons_getD ops (' ', 0) i (c, n) rest hdrop
    have hmem : (c, n) ∈ ops := by
      rw [← hgd]
      exact getD_mem ops (' ', 0) i hilt
    have hn1 : 1 ≤ n := hcnt _ hmem
    have hposs : pos ops (i + 1) = pos ops i + n := by
      rw [pos_succ ops i hilt, hgd]
    by_cases h1 : c = '['
    · subst h1
      have hn : n = 1 := hbr1 _ hmem rfl
      subst hn
      -- batch side steps to buildAux rest (i+1) (i :: st) t_r
      -- direct side: expand = '[' :: expand rest, steps to pos i + 1
      have hd : Simple.buildAux (expand ((('[' : Char), 1) :: rest)) (pos ops i)
          (st.map (pos ops)) t_d =
          Simple.buildAux (expand rest) (pos ops (i + 1))
            ((i :: st).map (pos ops)) t_d := by
        show Simple.buildAux ('[' :: expand rest) (pos ops i) (st.map (pos ops)) t_d = _
        rw [hposs]
        rfl
      rw [hd]
      have hb : Batch.buildAux ((('[' : Char), 1) :: rest) i st t_r =
          Batch.buildAux rest (i + 1) (i :: st) t_r := rfl
      rw [hb]
      refine ih (i + 1) (i :: st) t_r t_d hdrop2 hilt ?_ ?_
      · intro o ho
        rcases List.mem_cons.mp ho with rfl | ho2
        · omega
        · have := hst o ho2
          omega
      · intro j k hjk
        obtain ⟨hj, hk, hrd⟩ := hrel j k hjk
        exact ⟨by omega, by omega, hrd⟩
    · by_cases h2 : c = ']'
      · subst h2
        have hn : n = 1 := hbr1 _ hmem rfl
        subst hn
        cases st with
        | nil =>
          show BuildCorr ops (.error _)
            (Simple.buildAux (']' :: expand rest) (pos ops i) [] t_d)
          have : Simple.buildAux (']' :: expand rest) (pos ops i) [] t_d =
              .error (.unmatchedClose (pos ops i)) := rfl
          rw [this]
          trivial
        | cons o st2 =>
          have ho_i : o < i := hst o (List.mem_cons_self o st2)
          have hb : Batch.buildAux (((']' : Char), 1) :: rest) i (o :: st2) t_r =
              Batch.buildAux rest (i + 1) st2 (updJ (updJ t_r o i) i o) := rfl
          have hd : Simple.buildAux (expand (((']' : Char), 1) :: rest)) (pos ops i)
              ((o :: st2).map (pos ops)) t_d =
              Simple.buildAux (expand rest) (pos ops (i + 1)) (st2.map (pos ops))
                (updJ (updJ t_d (pos ops o) (pos ops i)) (pos ops i) (pos ops o)) := by
            show Simple.buildAux (']' :: expand rest) (pos ops i)
              (pos ops o :: st2.map (pos ops)) t_d = _
            rw [hposs]
            rfl
          rw [hb, hd]
          refine ih (i + 1) st2 (updJ (updJ t_r o i) i o)
            (updJ (updJ t_d (pos ops o) (pos ops i)) (pos ops i) (pos ops o))
            hdrop2 hilt ?_ ?_
          · intro o2 ho2
            have := hst o2 (List.mem_cons.mpr (Or.inr ho2))
            omega
          · intro j k hjk
            have hpoi : ¬(pos ops o = pos ops i) :=
              pos_inj ops hcnt o i (by omega) (by omega) (by omega)
            by_cases hji : j = i
            · subst hji
              rw [updJ_same] at hjk
              cases hjk
              refine ⟨by omega, by omega, ?_⟩
              rw [updJ_same]
            · rw [updJ_other _ _ _ _ hji] at hjk
              by_cases hjo : j = o
              · subst hjo
                rw [updJ_same] at hjk
                cases hjk
                refine ⟨by omega, by omega, ?_⟩
                rw [updJ_other _ _ _ _ hpoi, updJ_same]
              · rw [updJ_other _ _ _ _ hjo] at hjk
                obtain ⟨hj, hk, hrd⟩ := hrel j k hjk
                have hpji : ¬(pos ops j = pos ops i) :=
                  pos_inj ops hcnt j i (by omega) (by omega) (by omega)
                have hpjo : ¬(pos ops j = pos ops o) :=
                  pos_inj ops hcnt j o (by omega) (by omega) (by omega)
                refine ⟨by omega, by omega, ?_⟩
                rw [updJ_other _ _ _ _ hpji, updJ_other _ _ _ _ hpjo]
                exact hrd
      · -- non-bracket operator
        have hb : Batch.buildAux ((c, n) :: rest) i st t_r =
            Batch.buildAux rest (i + 1) st t_r := by
          simp only [Batch.buildAux]
          rw [if_neg h1, if_neg h2]
        have hd : Simple.buildAux (expand ((c, n) :: rest)) (pos ops i)
            (st.map (pos ops)) t_d =
            Simple.buildAux (expand rest) (pos ops (i + 1)) (st.map (pos ops)) t_d := by
          show Simple.buildAux (List.replicate n c ++ expand rest) (pos ops i)
            (st.map (pos ops)) t_d = _
          rw [buildAux_replicate_nonbracket c h1 h2 n (expand rest) (pos ops i)
            (st.map (pos ops)) t_d, hposs]
        rw [hb, hd]
        refine ih (i + 1) st t_r t_d hdrop2 hilt ?_ ?_
        · intro o ho
          have := hst o ho
          omega
        · intro j k hjk
          obtain ⟨hj, hk, hrd⟩ := hrel j k hjk
          exact ⟨by omega, by omega, hrd⟩

theorem buildCorr (ops : List (Char × Nat))
    (hcnt : ∀ p ∈ ops, 1 ≤ p.2)
    (hbr1 : ∀ p ∈ ops, isBracket p.1 = true → p.2 = 1) :
    BuildCorr ops (Batch.build_jump_table ops)
      (Simple.build_jump_table (expand ops)) := by
  have h := buildCorrAux ops hcnt hbr1 ops 0 [] emptyJ emptyJ (by simp)
    (by simp) (fun o ho => by cases ho) (fun j k h => by cases h)
  rw [pos_zero] at h
  exact h

end BF

namespace BF

theorem updT_updT (tp : Int → Nat) (k : Int) (v w : Nat) :
    updT (updT tp k v) k w = updT tp k w := by
  funext x
  by_cases h : x = k <;> simp [updT, h]

@[simp] theorem updT_read (tp : Int → Nat) (k : Int) (v : Nat) :
    updT tp k v k = v := by
  simp [updT]

theorem emod_shift_add (a b : Int) :
    ((a % tapeLen) + b) % tapeLen = (a + b) % tapeLen := by
  show ((a % 30000) + b) % 30000 = (a + b) % 30000
  omega

theorem emod_shift_sub (a b : Int) :
    ((a % tapeLen) - b) % tapeLen = (a - b) % tapeLen := by
  show ((a % 30000) - b) % 30000 = (a - b) % 30000
  omega

theorem nmod_shift_add (a b : Nat) : ((a % 256) + b) % 256 = (a + b) % 256 := by
  omega

theorem minus_collapse (v : Int) (k : Nat) :
    ((((v - (k : Int)) % 256).toNat : Int) - 1) % 256 = (v - ((k : Nat) + 1 : Nat)) % 256 := by
  have h1 : 0 ≤ (v - (k : Int)) % 256 := Int.emod_nonneg _ (by norm_num)
  rw [Int.toNat_of_nonneg h1]
  push_cast
  omega

theorem gt_steps (code : List Char) (jt : Tab) (dbg : Bool) :
    ∀ (n : Nat) (t : St),
      (∀ j, j < n + 1 → code.getD (t.ip + j) ' ' = '>') →
      t.ip + (n + 1) ≤ code.length →
      ∃ t2, okSteps code jt dbg (n + 1) t t2 ∧
        t2.ptr = (t.ptr + ((n : Int) + 1)) % tapeLen ∧ t2.tape = t.tape ∧
        t2.inp = t.inp ∧ t2.out = t.out ∧ t2.ip = t.ip + (n + 1) := by
  intro n
  induction n with
  | zero =>
    intro t hcode hlen
    have hc : code.getD t.ip ' ' = '>' := by
      have := hcode 0 (by omega)
      simpa using this
    refine ⟨finish dbg '>' { t with ptr := (t.ptr + 1) % tapeLen },
      ⟨by omega, _, Simple.step_gt code jt dbg t hc, rfl⟩, ?_, ?_, ?_, ?_, ?_⟩ <;> simp
  | succ n ih =>
    intro t hcode hlen
    have hc : code.getD t.ip ' ' = '>' := by
      have := hcode 0 (by omega)
      simpa using this
    set t1 := finish dbg '>' { t with ptr := (t.ptr + 1) % tapeLen } with ht1
    have hstep : Simple.step code jt dbg t = .ok t1 := Simple.step_gt code jt dbg t hc
    have hip1 : t1.ip = t.ip + 1 := by simp [ht1]
    obtain ⟨t2, hok, hptr, htape, hinp, hout, hip⟩ := ih t1
      (by
        intro j hj
        rw [hip1, show t.ip + 1 + j = t.ip + (1 + j) from by omega]
        exact hcode (1 + j) (by omega))
      (by omega)
    refine ⟨t2, ⟨by omega, t1, hstep, hok⟩, ?_, by simp [htape, ht1],
      by simp [hinp, ht1], by simp [hout, ht1], by omega⟩
    rw [hptr]
    show (t1.ptr + ((n : Int) + 1)) % tapeLen = _
    have : t1.ptr = (t.ptr + 1) % tapeLen := by simp [ht1]
    rw [this, emod_shift_add]
    congr 1
    push_cast
    ring

theorem lt_steps (code : List Char) (jt : Tab) (dbg : Bool) :
    ∀ (n : Nat) (t : St),
      (∀ j, j < n + 1 → code.getD (t.ip + j) ' ' = '<') →
      t.ip + (n + 1) ≤ code.length →
      ∃ t2, okSteps code jt dbg (n + 1) t t2 ∧
        t2.ptr = (t.ptr - ((n : Int) + 1)) % tapeLen ∧ t2.tape = t.tape ∧
        t2.inp = t.inp ∧ t2.out = t.out ∧ t2.ip = t.ip + (n + 1) := by
  intro n
  induction n with
  | zero =>
    intro t hcode hlen
    have hc : code.getD t.ip ' ' = '<' := by
      have := hcode 0 (by omega)
      simpa using this
    refine ⟨finish dbg '<' { t with ptr := (t.ptr - 1) % tapeLen },
      ⟨by omega, _, Simple.step_lt code jt dbg t hc, rfl⟩, ?_, ?_, ?_, ?_, ?_⟩ <;> simp
  | succ n ih =>
    intro t hcode hlen
    have hc : code.getD t.ip ' ' = '<' := by
      have := hcode 0 (by omega)
      simpa using this
    set t1 := finish dbg '<' { t with ptr := (t.ptr - 1) % tapeLen } with ht1
    have hstep : Simple.step code jt dbg t = .ok t1 := Simple.step_lt code jt dbg t hc
    have hip1 : t1.ip = t.ip + 1 := by simp [ht1]
    obtain ⟨t2, hok, hptr, htape, hinp, hout, hip⟩ := ih t1
      (by
        intro j hj
        rw [hip1, show t.ip + 1 + j = t.ip + (1 + j) from by omega]
        exact hcode (1 + j) (by omega))
      (by omega)
    refine ⟨t2, ⟨by omega, t1, hstep, hok⟩, ?_, by simp [htape, ht1],
      by simp [hinp, ht1], by simp [hout, ht1], by omega⟩
    rw [hptr]
    have : t1.ptr = (t.ptr - 1) % tapeLen := by simp [ht1]
    rw [this, emod_shift_sub]
    congr 1
    push_cast
    ring

end BF

namespace BF

theorem plus_steps (code : List Char) (jt : Tab) (dbg : Bool) :
    ∀ (n : Nat) (t : St),
      (∀ j, j < n + 1 → code.getD (t.ip + j) ' ' = '+') →
      t.ip + (n + 1) ≤ code.length →
      ∃ t2, okSteps code jt dbg (n + 1) t t2 ∧
        t2.ptr = t.ptr ∧
        t2.tape = updT t.tape t.ptr ((t.tape t.ptr + (n + 1)) % 256) ∧
        t2.inp = t.inp ∧ t2.out = t.out ∧ t2.ip = t.ip + (n + 1) := by
  intro n
  induction n with
  | zero =>
    intro t hcode hlen
    have hc : code.getD t.ip ' ' = '+' := by
      have := hcode 0 (by omega)
      simpa using this
    refine ⟨finish dbg '+'
      { t with tape := updT t.tape t.ptr ((t.tape t.ptr + 1) % 256) },
      ⟨by omega, _, Simple.step_plus code jt dbg t hc, rfl⟩, ?_, ?_, ?_, ?_, ?_⟩ <;> simp
  | succ n ih =>
    intro t hcode hlen
    have hc : code.getD t.ip ' ' = '+' := by
      have := hcode 0 (by omega)
      simpa using this
    set t1 := finish dbg '+'
      { t with tape := updT t.tape t.ptr ((t.tape t.ptr + 1) % 256) } with ht1
    have hstep : Simple.step code jt dbg t = .ok t1 := Simple.step_plus code jt dbg t hc
    have hip1 : t1.ip = t.ip + 1 := by simp [ht1]
    have hptr1 : t1.ptr = t.ptr := by simp [ht1]
    have htape1 : t1.tape = updT t.tape t.ptr ((t.tape t.ptr + 1) % 256) := by simp [ht1]
    obtain ⟨t2, hok, hptr, htape, hinp, hout, hip⟩ := ih t1
      (by
        intro j hj
        rw [hip1, show t.ip + 1 + j = t.ip + (1 + j) from by omega]
        exact hcode (1 + j) (by omega))
      (by omega)
    refine ⟨t2, ⟨by omega, t1, hstep, hok⟩, by rw [hptr, hptr1], ?_,
      by simp [hinp, ht1], by simp [hout, ht1], by rw [hip, hip1]; omega⟩
    have hval : ((t.tape t.ptr + 1) % 256 + (n + 1)) % 256 =
        (t.tape t.ptr + (n + 1 + 1)) % 256 := by omega
    rw [htape, hptr1, htape1, updT_read, updT_updT, hval]

theorem minus_steps (code : List Char) (jt : Tab) (dbg : Bool) :
    ∀ (n : Nat) (t : St),
      (∀ j, j < n + 1 → code.getD (t.ip + j) ' ' = '-') →
      t.ip + (n + 1) ≤ code.length →
      ∃ t2, okSteps code jt dbg (n + 1) t t2 ∧
        t2.ptr = t.ptr ∧
        t2.tape = updT t.tape t.ptr
          ((((t.tape t.ptr : Int) - ((n : Int) + 1)) % 256).toNat) ∧
        t2.inp = t.inp ∧ t2.out = t.out ∧ t2.ip = t.ip + (n + 1) := by
  intro n
  induction n with
  | zero =>
    intro t hcode hlen
    have hc : code.getD t.ip ' ' = '-' := by
      have := hcode 0 (by omega)
      simpa using this
    refine ⟨finish dbg '-'
      { t with tape := updT t.tape t.ptr ((((t.tape t.ptr : Int) - 1) % 256).toNat) },
      ⟨by omega, _, Simple.step_minus code jt dbg t hc, rfl⟩, ?_, ?_, ?_, ?_, ?_⟩ <;> simp
  | succ n ih =>
    intro t hcode hlen
    have hc : code.getD t.ip ' ' = '-' := by
      have := hcode 0 (by omega)
      simpa using this
    set t1 := finish dbg '-'
      { t with tape := updT t.tape t.ptr ((((t.tape t.ptr : Int) - 1) % 256).toNat) } with ht1
    have hstep : Simple.step code jt dbg t = .ok t1 := Simple.step_minus code jt dbg t hc
    have hip1 : t1.ip = t.ip + 1 := by simp [ht1]
    have hptr1 : t1.ptr = t.ptr := by simp [ht1]
    have htape1 : t1.tape =
        updT t.tape t.ptr ((((t.tape t.ptr : Int) - 1) % 256).toNat) := by simp [ht1]
    obtain ⟨t2, hok, hptr, htape, hinp, hout, hip⟩ := ih t1
      (by
        intro j hj
        rw [hip1, show t.ip + 1 + j = t.ip + (1 + j) from by omega]
        exact hcode (1 + j) (by omega))
      (by omega)
    refine ⟨t2, ⟨by omega, t1, hstep, hok⟩, by rw [hptr, hptr1], ?_,
      by simp [hinp, ht1], by simp [hout, ht1], by rw [hip, hip1]; omega⟩
    rw [htape, hptr1, htape1, updT_read, updT_updT]
    refine congrArg (updT t.tape t.ptr) ?_
    have h2 : 0 ≤ ((t.tape t.ptr : Int) - 1) % 256 := Int.emod_nonneg _ (by norm_num)
    have h3 : ((t.tape t.ptr : Int) - 1) % 256 < 256 := Int.emod_lt_of_pos _ (by norm_num)
    omega

theorem dot_steps (code : List Char) (jt : Tab) (dbg : Bool) :
    ∀ (n : Nat) (t : St),
      (∀ j, j < n + 1 → code.getD (t.ip + j) ' ' = '.') →
      t.ip + (n + 1) ≤ code.length →
      ∃ t2, okSteps code jt dbg (n + 1) t t2 ∧
        t2.ptr = t.ptr ∧ t2.tape = t.tape ∧ t2.inp = t.inp ∧
        t2.out = t.out ++ List.replicate (n + 1) (Char.ofNat (t.tape t.ptr)) ∧
        t2.ip = t.ip + (n + 1) := by
  intro n
  induction n with
  | zero =>
    intro t hcode hlen
    have hc : code.getD t.ip ' ' = '.' := by
      have := hcode 0 (by omega)
      simpa using this
    refine ⟨finish dbg '.'
      { t with out := t.out ++ [Char.ofNat (t.tape t.ptr)] },
      ⟨by omega, _, Simple.step_dot code jt dbg t hc, rfl⟩, ?_, ?_, ?_, ?_, ?_⟩ <;> simp
  | succ n ih =>
    intro t hcode hlen
    have hc : code.getD t.ip ' ' = '.' := by
      have := hcode 0 (by omega)
      simpa using this
    set t1 := finish dbg '.'
      { t with out := t.out ++ [Char.ofNat (t.tape t.ptr)] } with ht1
    have hstep : Simple.step code jt dbg t = .ok t1 := Simple.step_dot code jt dbg t hc
    have hip1 : t1.ip = t.ip + 1 := by simp [ht1]
    have hptr1 : t1.ptr = t.ptr := by simp [ht1]
    have htape1 : t1.tape = t.tape := by simp [ht1]
    have hout1 : t1.out = t.out ++ [Char.ofNat (t.tape t.ptr)] := by simp [ht1]
    obtain ⟨t2, hok, hptr, htape, hinp, hout, hip⟩ := ih t1
      (by
        intro j hj
        rw [hip1, show t.ip + 1 + j = t.ip + (1 + j) from by omega]
        exact hcode (1 + j) (by omega))
      (by omega)
    refine ⟨t2, ⟨by omega, t1, hstep, hok⟩, by rw [hptr, hptr1],
      by rw [htape, htape1], by simp [hinp, ht1], ?_, by rw [hip, hip1]; omega⟩
    rw [hout, hout1, hptr1, htape1, List.append_assoc]
    rfl

end BF

namespace BF

theorem step_sim (ops : List (Char × Nat)) (tr td : Tab) (dbg : Bool)
    (hval : ∀ p ∈ ops, isOp p.1 = true)
    (hcnt : ∀ p ∈ ops, 1 ≤ p.2)
    (hsens : ∀ p ∈ ops, mergeSensitive p.1 = true → p.2 = 1)
    (htab : TabRel ops tr td)
    (hdom : ∀ j, j < ops.length → isBracket (ops.getD j (' ', 0)).1 = true →
      (tr j).isSome = true)
    (s t : St) (hrel : SRel ops s t) (hip : s.ip < ops.length) :
    (∀ s2, Batch.step ops tr dbg s = .ok s2 →
      ∃ m t2, 1 ≤ m ∧ okSteps (expand ops) td dbg m t t2 ∧ SRel ops s2 t2) ∧
    (∀ e s2, Batch.step ops tr dbg s = .err e s2 →
      t.ip < (expand ops).length ∧
        Simple.step (expand ops) td dbg t = .err e t ∧ s2 = s) := by
  obtain ⟨hptr, htape, hinp, hout, hipr, hiple⟩ := hrel
  have hmem : ops.getD s.ip (' ', 0) ∈ ops := getD_mem ops (' ', 0) s.ip hip
  have hn1 : 1 ≤ (ops.getD s.ip (' ', 0)).2 := hcnt _ hmem
  obtain ⟨n0, hn0⟩ : ∃ n0, (ops.getD s.ip (' ', 0)).2 = n0 + 1 :=
    ⟨(ops.getD s.ip (' ', 0)).2 - 1, by omega⟩
  have hposs : pos ops (s.ip + 1) = pos ops s.ip + (n0 + 1) := by
    rw [pos_succ ops s.ip hip, hn0]
  have hlen : t.ip + (n0 + 1) ≤ (expand ops).length := by
    rw [hipr, length_expand]
    have := pos_mono ops (s.ip + 1) ops.length (by omega)
    omega
  have htlt : t.ip < (expand ops).length := by omega
  have hcode : ∀ j, j < n0 + 1 →
      (expand ops).getD (t.ip + j) ' ' = (ops.getD s.ip (' ', 0)).1 := by
    intro j hj
    rw [hipr]
    exact expand_getD ops s.ip j hip (by omega)
  rcases cmd_cases (ops.getD s.ip (' ', 0)).1 with hc | hc | hc | hc | hc | hc | hc | hc | hc
  all_goals
    (have hpair : ops.getD s.ip (' ', 0) =
        ((ops.getD s.ip (' ', 0)).1, n0 + 1) := by
      rw [← hn0])
  -- the '>' case
  · constructor
    · intro s2 hs2
      rw [Batch.step_gt_rle ops tr dbg s (n0 + 1) (by rw [hpair, hc])] at hs2
      cases hs2
      obtain ⟨t2, hok, h1, h2, h3, h4, h5⟩ := gt_steps (expand ops) td dbg n0 t
        (fun j hj => by rw [hcode j hj, hc]) hlen
      refine ⟨n0 + 1, t2, by omega, hok, ?_, ?_, ?_, ?_, ?_, ?_⟩
      · rw [h1, hptr]
        simp only [finish_ptr, Nat.cast_add, Nat.cast_one]
      · rw [h2, htape]; simp
      · rw [h3, hinp]; simp
      · rw [h4, hout]; simp
      · rw [h5, hipr]
        simp only [finish_ip]
        omega
      · simp only [finish_ip]
        omega
    · intro e s2 he
      rw [Batch.step_gt_rle ops tr dbg s (n0 + 1) (by rw [hpair, hc])] at he
      cases he
  -- the '<' case
  · constructor
    · intro s2 hs2
      rw [Batch.step_lt_rle ops tr dbg s (n0 + 1) (by rw [hpair, hc])] at hs2
      cases hs2
      obtain ⟨t2, hok, h1, h2, h3, h4, h5⟩ := lt_steps (expand ops) td dbg n0 t
        (fun j hj => by rw [hcode j hj, hc]) hlen
      refine ⟨n0 + 1, t2, by omega, hok, ?_, ?_, ?_, ?_, ?_, ?_⟩
      · rw [h1, hptr]
        simp only [finish_ptr, Nat.cast_add, Nat.cast_one]
      · rw [h2, htape]; simp
      · rw [h3, hinp]; simp
      · rw [h4, hout]; simp
      · rw [h5, hipr]
        simp only [finish_ip]
        omega
      · simp only [finish_ip]
        omega
    · intro e s2 he
      rw [Batch.step_lt_rle ops tr dbg s (n0 + 1) (by rw [hpair, hc])] at he
      cases he
  -- the '+' case
  · constructor
    · intro s2 hs2
      rw [Batch.step_plus_rle ops tr dbg s (n0 + 1) (by rw [hpair, hc])] at hs2
      cases hs2
      obtain ⟨t2, hok, h1, h2, h3, h4, h5⟩ := plus_steps (expand ops) td dbg n0 t
        (fun j hj => by rw [hcode j hj, hc]) hlen
      refine ⟨n0 + 1, t2, by omega, hok, ?_, ?_, ?_, ?_, ?_, ?_⟩
      · rw [h1, hptr]; simp
      · rw [h2, htape, hptr]; simp
      · rw [h3, hinp]; simp
      · rw [h4, hout]; simp
      · rw [h5, hipr]
        simp only [finish_ip]
        omega
      · simp only [finish_ip]
        omega
    · intro e s2 he
      rw [Batch.step_plus_rle ops tr dbg s (n0 + 1) (by rw [hpair, hc])] at he
      cases he
  -- the '-' case
  · constructor
    · intro s2 hs2
      rw [Batch.step_minus_rle ops tr dbg s (n0 + 1) (by rw [hpair, hc])] at hs2
      cases hs2
      obtain ⟨t2, hok, h1, h2, h3, h4, h5⟩ := minus_steps (expand ops) td dbg n0 t
        (fun j hj => by rw [hcode j hj, hc]) hlen
      refine ⟨n0 + 1, t2, by omega, hok, ?_, ?_, ?_, ?_, ?_, ?_⟩
      · rw [h1, hptr]; simp
      · rw [h2, htape, hptr]
        simp only [finish_tape, Nat.cast_add, Nat.cast_one]
      · rw [h3, hinp]; simp
      · rw [h4, hout]; simp
      · rw [h5, hipr]
        simp only [finish_ip]
        omega
      · simp only [finish_ip]
        omega
    · intro e s2 he
      rw [Batch.step_minus_rle ops tr dbg s (n0 + 1) (by rw [hpair, hc])] at he
      cases he
  -- the ',' case
  · have hone : n0 + 1 = 1 := by
      rw [← hn0]
      refine hsens _ hmem ?_
      rw [hc]
      rfl
    have hcchar : (expand ops).getD t.ip ' ' = ',' := by
      have := hcode 0 (by omega)
      rw [hc] at this
      simpa using this
    rcases hs : s.inp with _ | ⟨line, restInp⟩
    · constructor
      · intro s2 hs2
        rw [Batch.step_comma_empty_rle ops tr dbg s (n0 + 1) (by rw [hpair, hc]) hs] at hs2
        cases hs2
      · intro e s2 he
        rw [Batch.step_comma_empty_rle ops tr dbg s (n0 + 1) (by rw [hpair, hc]) hs] at he
        cases he
        refine ⟨htlt, ?_, rfl⟩
        exact Simple.step_comma_empty (expand ops) td dbg t hcchar (by rw [hinp, hs])
    · rcases hl : line with _ | ⟨ch, tl⟩
      · subst hl
        constructor
        · intro s2 hs2
          rw [Batch.step_comma_emptyline_rle ops tr dbg s (n0 + 1) restInp
            (by rw [hpair, hc]) hs] at hs2
          cases hs2
        · intro e s2 he
          rw [Batch.step_comma_emptyline_rle ops tr dbg s (n0 + 1) restInp
            (by rw [hpair, hc]) hs] at he
          cases he
          refine ⟨htlt, ?_, rfl⟩
          exact Simple.step_comma_emptyline (expand ops) td dbg t restInp hcchar
            (by rw [hinp, hs])
      · subst hl
        constructor
        · intro s2 hs2
          rw [Batch.step_comma_ok_rle ops tr dbg s (n0 + 1) ch tl restInp
            (by rw [hpair, hc]) hs] at hs2
          cases hs2
          refine ⟨1, finish dbg ','
            { t with tape := updT t.tape t.ptr (ch.toNat % 256), inp := restInp },
            le_refl 1,
            ⟨htlt, _, Simple.step_comma_ok (expand ops) td dbg t ch tl restInp
              hcchar (by rw [hinp, hs]), rfl⟩, ?_, ?_, ?_, ?_, ?_, ?_⟩
          · simp [hptr]
          · simp [htape, hptr]
          · simp
          · simp [hout]
          · simp only [finish_ip]
            rw [hipr]
            omega
          · simp only [finish_ip]
            omega
        · intro e s2 he
          rw [Batch.step_comma_ok_rle ops tr dbg s (n0 + 1) ch tl restInp
            (by rw [hpair, hc]) hs] at he
          cases he
  -- the '.' case
  · constructor
    · intro s2 hs2
      rw [Batch.step_dot_rle ops tr dbg s (n0 + 1) (by rw [hpair, hc])] at hs2
      cases hs2
      obtain ⟨t2, hok, h1, h2, h3, h4, h5⟩ := dot_steps (expand ops) td dbg n0 t
        (fun j hj => by rw [hcode j hj, hc]) hlen
      refine ⟨n0 + 1, t2, by omega, hok, ?_, ?_, ?_, ?_, ?_, ?_⟩
      · rw [h1, hptr]; simp
      · rw [h2, htape]; simp
      · rw [h3, hinp]; simp
      · rw [h4, hout, htape, hptr]; simp
      · rw [h5, hipr]
        simp only [finish_ip]
        omega
      · simp only [finish_ip]
        omega
    · intro e s2 he
      rw [Batch.step_dot_rle ops tr dbg s (n0 + 1) (by rw [hpair, hc])] at he
      cases he
  -- the '[' case
  · have hone : n0 + 1 = 1 := by
      rw [← hn0]
      refine hsens _ hmem ?_
      rw [hc]
      rfl
    have hcchar : (expand ops).getD t.ip ' ' = '[' := by
      have := hcode 0 (by omega)
      rw [hc] at this
      simpa using this
    have hsome : (tr s.ip).isSome = true := by
      refine hdom s.ip hip ?_
      rw [hc]
      rfl
    obtain ⟨k, hk⟩ : ∃ k, tr s.ip = some k := by
      cases htr : tr s.ip with
      | none => rw [htr] at hsome; cases hsome
      | some k => exact ⟨k, rfl⟩
    obtain ⟨hkle, hdk⟩ := htab s.ip k hk
    by_cases hz : s.tape s.ptr = 0
    · constructor
      · intro s2 hs2
        rw [Batch.step_lbrack_jump_rle ops tr dbg s (n0 + 1) k
          (by rw [hpair, hc]) hz hk] at hs2
        cases hs2
        refine ⟨1, { t with ip := pos ops k, steps := t.steps + 1 }, le_refl 1,
          ⟨htlt, _, Simple.step_lbrack_jump (expand ops) td dbg t (pos ops k)
            hcchar (by rw [htape, hptr]; exact hz) (by rw [hipr]; exact hdk), rfl⟩,
          hptr, htape, hinp, hout, rfl, hkle⟩
      · intro e s2 he
        rw [Batch.step_lbrack_jump_rle ops tr dbg s (n0 + 1) k
          (by rw [hpair, hc]) hz hk] at he
        cases he
    · obtain ⟨m, hm⟩ := Nat.exists_eq_succ_of_ne_zero hz
      constructor
      · intro s2 hs2
        rw [Batch.step_lbrack_fall_rle ops tr dbg s (n0 + 1) m
          (by rw [hpair, hc]) hm] at hs2
        cases hs2
        refine ⟨1, finish dbg '[' t, le_refl 1,
          ⟨htlt, _, Simple.step_lbrack_fall (expand ops) td dbg t m hcchar
            (by rw [htape, hptr]; exact hm), rfl⟩, ?_, ?_, ?_, ?_, ?_, ?_⟩
        · simp [hptr]
        · simp [htape]
        · simp [hinp]
        · simp [hout]
        · simp only [finish_ip]
          rw [hipr]
          omega
        · simp only [finish_ip]
          omega
      · intro e s2 he
        rw [Batch.step_lbrack_fall_rle ops tr dbg s (n0 + 1) m
          (by rw [hpair, hc]) hm] at he
        cases he
  -- the ']' case
  · have hone : n0 + 1 = 1 := by
      rw [← hn0]
      refine hsens _ hmem ?_
      rw [hc]
      rfl
    have hcchar : (expand ops).getD t.ip ' ' = ']' := by
      have := hcode 0 (by omega)
      rw [hc] at this
      simpa using this
    have hsome : (tr s.ip).isSome = true := by
      refine hdom s.ip hip ?_
      rw [hc]
      rfl
    obtain ⟨k, hk⟩ : ∃ k, tr s.ip = some k := by
      cases htr : tr s.ip with
      | none => rw [htr] at hsome; cases hsome
      | some k => exact ⟨k, rfl⟩
    obtain ⟨hkle, hdk⟩ := htab s.ip k hk
    by_cases hz : s.tape s.ptr = 0
    · constructor
      · intro s2 hs2
        rw [Batch.step_rbrack_fall_rle ops tr dbg s (n0 + 1)
          (by rw [hpair, hc]) hz] at hs2
        cases hs2
        refine ⟨1, finish dbg ']' t, le_refl 1,
          ⟨htlt, _, Simple.step_rbrack_fall (expand ops) td dbg t hcchar
            (by rw [htape, hptr]; exact hz), rfl⟩, ?_, ?_, ?_, ?_, ?_, ?_⟩
        · simp [hptr]
        · simp [htape]
        · simp [hinp]
        · simp [hout]
        · simp only [finish_ip]
          rw [hipr]
          omega
        · simp only [finish_ip]
          omega
      · intro e s2 he
        rw [Batch.step_rbrack_fall_rle ops tr dbg s (n0 + 1)
          (by rw [hpair, hc]) hz] at he
        cases he
    · obtain ⟨m, hm⟩ := Nat.exists_eq_succ_of_ne_zero hz
      constructor
      · intro s2 hs2
        rw [Batch.step_rbrack_jump_rle ops tr dbg s (n0 + 1) m k
          (by rw [hpair, hc]) hm hk] at hs2
        cases hs2
        refine ⟨1, { t with ip := pos ops k, steps := t.steps + 1 }, le_refl 1,
          ⟨htlt, _, Simple.step_rbrack_jump (expand ops) td dbg t m (pos ops k)
            hcchar (by rw [htape, hptr]; exact hm) (by rw [hipr]; exact hdk), rfl⟩,
          hptr, htape, hinp, hout, rfl, hkle⟩
      · intro e s2 he
        rw [Batch.step_rbrack_jump_rle ops tr dbg s (n0 + 1) m k
          (by rw [hpair, hc]) hm hk] at he
        cases he
  -- impossible: invalid operator
  · have := hval _ hmem
    rw [this] at hc
    cases hc

end BF

namespace BF

theorem okSteps_loop (code : List Char) (jt : Tab) (dbg : Bool) :
    ∀ (m : Nat) (t t2 : St) (f : Nat), okSteps code jt dbg m t t2 →
      Simple.loop code jt dbg (m + f) t = Simple.loop code jt dbg f t2 := by
  intro m
  induction m with
  | zero =>
    intro t t2 f h
    cases h
    rw [Nat.zero_add]
  | succ m ih =>
    intro t t2 f h
    obtain ⟨hlt, t1, hstep, hrest⟩ := h
    have hfuel : m + 1 + f = (m + f) + 1 := by omega
    rw [hfuel]
    have hone : Simple.loop code jt dbg ((m + f) + 1) t =
        Simple.loop code jt dbg (m + f) t1 := by
      conv_lhs => rw [Simple.loop]
      rw [if_pos hlt, hstep]
    rw [hone]
    exact ih t1 t2 f hrest

theorem loop_timeout_mono (code : List Char) (jt : Tab) (dbg : Bool) :
    ∀ (g2 g : Nat) (t : St), g ≤ g2 →
      Simple.loop code jt dbg g2 t = .timeout →
      Simple.loop code jt dbg g t = .timeout := by
  intro g2
  induction g2 with
  | zero =>
    intro g t hg h
    have : g = 0 := by omega
    subst this
    rfl
  | succ g2 ih =>
    intro g t hg h
    cases g with
    | zero => rfl
    | succ g =>
      unfold Simple.loop at h ⊢
      by_cases hlt : t.ip < code.length
      · rw [if_pos hlt] at h ⊢
        rcases e : Simple.step code jt dbg t with t1 | ⟨e1, t1⟩
        · rw [e] at h
          exact ih g t1 (by omega) h
        · rw [e] at h
          cases h
      · rw [if_neg hlt] at h
        cases h

theorem loop_mono (code : List Char) (jt : Tab) (dbg : Bool) :
    ∀ (g : Nat) (t : St) (r : Res), Simple.loop code jt dbg g t = r →
      ¬(r = .timeout) → ∀ g2, g ≤ g2 → Simple.loop code jt dbg g2 t = r := by
  intro g
  induction g with
  | zero =>
    intro t r h hr
    exact absurd h.symm hr
  | succ g ih =>
    intro t r h hr g2 hg
    obtain ⟨g3, rfl⟩ : ∃ g3, g2 = g3 + 1 := ⟨g2 - 1, by omega⟩
    unfold Simple.loop at h ⊢
    by_cases hlt : t.ip < code.length
    · rw [if_pos hlt] at h ⊢
      rcases e : Simple.step code jt dbg t with t1 | ⟨e1, t1⟩
      · rw [e] at h
        exact ih t1 r h hr g3 (by omega)
      · rw [e] at h
        exact h
    · rw [if_neg hlt] at h ⊢
      exact h

theorem loop_sim (ops : List (Char × Nat)) (tr td : Tab) (dbg : Bool)
    (hval : ∀ p ∈ ops, isOp p.1 = true)
    (hcnt : ∀ p ∈ ops, 1 ≤ p.2)
    (hsens : ∀ p ∈ ops, mergeSensitive p.1 = true → p.2 = 1)
    (htab : TabRel ops tr td)
    (hdom : ∀ j, j < ops.length → isBracket (ops.getD j (' ', 0)).1 = true →
      (tr j).isSome = true) :
    ∀ (f : Nat) (s t : St), SRel ops s t →
      ∃ g, ResRel ops (Batch.loop ops tr dbg f s)
        (Simple.loop (expand ops) td dbg g t) := by
  intro f
  induction f with
  | zero =>
    intro s t hrel
    exact ⟨0, trivial⟩
  | succ f ih =>
    intro s t hrel
    by_cases hip : s.ip < ops.length
    · rcases e : Batch.step ops tr dbg s with s2 | ⟨e1, s2⟩
      · obtain ⟨m, t2, hm, hok, hrel2⟩ :=
          (step_sim ops tr td dbg hval hcnt hsens htab hdom s t hrel hip).1 s2 e
        obtain ⟨g, hres⟩ := ih s2 t2 hrel2
        refine ⟨m + g, ?_⟩
        have hB : Batch.loop ops tr dbg (f + 1) s = Batch.loop ops tr dbg f s2 := by
          conv_lhs => rw [Batch.loop]
          rw [if_pos hip, e]
        rw [hB, okSteps_loop (expand ops) td dbg m t t2 g hok]
        exact hres
      · obtain ⟨hlt, hstep, heq⟩ :=
          (step_sim ops tr td dbg hval hcnt hsens htab hdom s t hrel hip).2 e1 s2 e
        subst heq
        refine ⟨1, ?_⟩
        have hB : Batch.loop ops tr dbg (f + 1) s2 = .runErr e1 s2 := by
          conv_lhs => rw [Batch.loop]
          rw [if_pos hip, e]
        have hS : Simple.loop (expand ops) td dbg 1 t = .runErr e1 t := by
          conv_lhs => rw [Simple.loop]
          rw [if_pos hlt, hstep]
        rw [hB, hS]
        exact ⟨rfl, hrel⟩
    · refine ⟨1, ?_⟩
      have hsip : s.ip = ops.length := by
        have := hrel.2.2.2.2.2
        omega
      have htip : ¬(t.ip < (expand ops).length) := by
        rw [hrel.2.2.2.2.1, hsip, length_expand]
        omega
      have hB : Batch.loop ops tr dbg (f + 1) s = .ok s := by
        conv_lhs => rw [Batch.loop]
        rw [if_neg hip]
      have hS : Simple.loop (expand ops) td dbg 1 t = .ok t := by
        conv_lhs => rw [Simple.loop]
        rw [if_neg htip]
      rw [hB, hS]
      exact hrel

theorem loop_sim_timeout (ops : List (Char × Nat)) (tr td : Tab) (dbg : Bool)
    (hval : ∀ p ∈ ops, isOp p.1 = true)
    (hcnt : ∀ p ∈ ops, 1 ≤ p.2)
    (hsens : ∀ p ∈ ops, mergeSensitive p.1 = true → p.2 = 1)
    (htab : TabRel ops tr td)
    (hdom : ∀ j, j < ops.length → isBracket (ops.getD j (' ', 0)).1 = true →
      (tr j).isSome = true) :
    ∀ (f : Nat) (s t : St), SRel ops s t →
      Batch.loop ops tr dbg f s = .timeout →
      Simple.loop (expand ops) td dbg f t = .timeout := by
  intro f
  induction f with
  | zero => intro s t hrel h; rfl
  | succ f ih =>
    intro s t hrel h
    by_cases hip : s.ip < ops.length
    · rcases e : Batch.step ops tr dbg s with s2 | ⟨e1, s2⟩
      · have hB : Batch.loop ops tr dbg (f + 1) s = Batch.loop ops tr dbg f s2 := by
          conv_lhs => rw [Batch.loop]
          rw [if_pos hip, e]
        rw [hB] at h
        obtain ⟨m, t2, hm, hok, hrel2⟩ :=
          (step_sim ops tr td dbg hval hcnt hsens htab hdom s t hrel hip).1 s2 e
        have h2 := ih s2 t2 hrel2 h
        have h3 : Simple.loop (expand ops) td dbg (m + f) t = .timeout := by
          rw [okSteps_loop (expand ops) td dbg m t t2 f hok]
          exact h2
        exact loop_timeout_mono (expand ops) td dbg (m + f) (f + 1) t (by omega) h3
      · have hB : Batch.loop ops tr dbg (f + 1) s = .runErr e1 s2 := by
          conv_lhs => rw [Batch.loop]
          rw [if_pos hip, e]
        rw [hB] at h
        cases h
    · have hB : Batch.loop ops tr dbg (f + 1) s = .ok s := by
        conv_lhs => rw [Batch.loop]
        rw [if_neg hip]
      rw [hB] at h
      cases h

end BF

namespace BF

theorem ResRel_outsMatch (ops : List (Char × Nat)) (r1 r2 : Res)
    (h : ResRel ops r1 r2) : outsMatch r1 r2 := by
  cases r1 <;> cases r2 <;> first
    | exact h.elim
    | trivial
    | (obtain ⟨-, -, -, ho, -, -⟩ := h; exact ho.symm)
    | (obtain ⟨he, -, -, -, ho, -, -⟩ := h; exact ⟨he, ho.symm⟩)

theorem loop_no_synerr (code : List Char) (jt : Tab) (dbg : Bool) :
    ∀ (f : Nat) (t : St) (e : BuildErr),
      ¬(Simple.loop code jt dbg f t = .syntaxErr e) := by
  intro f
  induction f with
  | zero => intro t e h; cases h
  | succ f ih =>
    intro t e h
    unfold Simple.loop at h
    by_cases hlt : t.ip < code.length
    · rw [if_pos hlt] at h
      rcases e2 : Simple.step code jt dbg t with t1 | ⟨e1, t1⟩
      · rw [e2] at h
        exact ih t1 e h
      · rw [e2] at h
        cases h
    · rw [if_neg hlt] at h
      cases h

/-- C1 (amended): for every program in which no two consecutive equal
merge-sensitive operators (',', '[' or ']') occur -- equivalently, the
run-length encoder gives every ',', '[' and ']' instruction count 1 -- and
every input stream, running the run-length encoding of the program in
run-length mode produces byte-identical output to running the program in
direct mode: for every fuel bound of the batch interpreter there is a fuel
bound of the direct interpreter under which the two results have matching
outputs (same output on normal completion, same error and same output on a
runtime error, both syntax errors, or both out of fuel), and conversely. -/
theorem C1_encoding_output_preserving (raw : List Char) (inp : List (List Char)) (dbg : Bool)
    (hnm : noMergeRuns (Simple.parse_code raw) = true) :
    (∀ f, ∃ g, outsMatch (Batch.run f dbg (Batch.parse_code raw) inp)
      (Simple.run g dbg (Simple.parse_code raw) inp)) ∧
    (∀ g, ∃ f, outsMatch (Batch.run f dbg (Batch.parse_code raw) inp)
      (Simple.run g dbg (Simple.parse_code raw) inp)) := by
  set ops := Batch.parse_code raw with hops
  have hexp : expand ops = Simple.parse_code raw := expand_parse raw
  have hval : ∀ p ∈ ops, isOp p.1 = true := Batch.parse_code_isOp raw
  have hcnt : ∀ p ∈ ops, 1 ≤ p.2 := Batch.parse_code_counts raw
  have hsens : ∀ p ∈ ops, mergeSensitive p.1 = true → p.2 = 1 :=
    parse_sensOne raw hnm
  have hbr1 : ∀ p ∈ ops, isBracket p.1 = true → p.2 = 1 := by
    intro p hp hb
    refine hsens p hp ?_
    simp only [isBracket, Bool.or_eq_true, beq_iff_eq] at hb
    simp only [mergeSensitive, Bool.or_eq_true, beq_iff_eq]
    tauto
  have hbc := buildCorr ops hcnt hbr1
  rw [hexp] at hbc
  rcases hB : Batch.build_jump_table ops with eB | tr
  · rcases hS : Simple.build_jump_table (Simple.parse_code raw) with eS | td
    · have hrunB : ∀ f, Batch.run f dbg ops inp = .syntaxErr eB := by
        intro f
        unfold Batch.run
        rw [hB]
      have hrunS : ∀ g, Simple.run g dbg (Simple.parse_code raw) inp = .syntaxErr eS := by
        intro g
        unfold Simple.run
        rw [hS]
      exact ⟨fun f => ⟨0, by rw [hrunB f, hrunS 0]; trivial⟩,
        fun g => ⟨0, by rw [hrunB 0, hrunS g]; trivial⟩⟩
    · rw [hB, hS] at hbc
      exact hbc.elim
  · rw [hB] at hbc
    rcases hS : Simple.build_jump_table (Simple.parse_code raw) with eS | td
    · rw [hS] at hbc
      exact hbc.elim
    · rw [hS] at hbc
      have hdom : ∀ j, j < ops.length → isBracket (ops.getD j (' ', 0)).1 = true →
          (tr j).isSome = true := by
        have h2 : Simple.build_jump_table (ops.map Prod.fst) = .ok tr := by
          rw [← build_jump_table_map]
          exact hB
        obtain ⟨-, -, hd⟩ := build_spec _ tr h2
        intro j hj hbj
        rw [hd j]
        refine ⟨by simpa using hj, ?_⟩
        rw [map_fst_getD]
        exact hbj
      have hrunB : ∀ f, Batch.run f dbg ops inp =
          Batch.loop ops tr dbg f (initSt inp) := by
        intro f
        unfold Batch.run
        rw [hB]
      have hrunS : ∀ g, Simple.run g dbg (Simple.parse_code raw) inp =
          Simple.loop (Simple.parse_code raw) td dbg g (initSt inp) := by
        intro g
        unfold Simple.run
        rw [hS]
      have hrel0 : SRel ops (initSt inp) (initSt inp) := by
        refine ⟨rfl, rfl, rfl, rfl, ?_, by simp [initSt]⟩
        rw [show (initSt inp).ip = 0 from rfl, pos_zero]
      constructor
      · intro f
        obtain ⟨g, hres⟩ := loop_sim ops tr td dbg hval hcnt hsens hbc hdom f
          (initSt inp) (initSt inp) hrel0
        rw [hexp] at hres
        refine ⟨g, ?_⟩
        rw [hrunB f, hrunS g]
        exact ResRel_outsMatch ops _ _ hres
      · intro g
        rcases hSg : Simple.loop (Simple.parse_code raw) td dbg g (initSt inp) with
          t2 | ⟨eS1, t2⟩ | eS2 | _
        · -- simple loop completed: run batch with the same fuel
          rcases hBg : Batch.loop ops tr dbg g (initSt inp) with s2 | ⟨eB1, s2⟩ | eB2 | _
          · obtain ⟨g2, hres⟩ := loop_sim ops tr td dbg hval hcnt hsens hbc hdom g
              (initSt inp) (initSt inp) hrel0
            rw [hexp] at hres
            rw [hBg] at hres
            rcases hg2 : Simple.loop (Simple.parse_code raw) td dbg g2 (initSt inp) with
              t3 | ⟨e3, t3⟩ | e3 | _ <;> rw [hg2] at hres
            · have hmax := loop_mono (Simple.parse_code raw) td dbg g2 (initSt inp)
                (.ok t3) hg2 (by intro hx; cases hx) (max g g2) (by omega)
              have hmax2 := loop_mono (Simple.parse_code raw) td dbg g (initSt inp)
                (.ok t2) hSg (by intro hx; cases hx) (max g g2) (by omega)
              rw [hmax] at hmax2
              cases hmax2
              refine ⟨g, ?_⟩
              rw [hrunB g, hrunS g, hBg, hSg]
              exact ResRel_outsMatch ops (.ok s2) (.ok t2) hres
            · exact hres.elim
            · exact hres.elim
            · exact hres.elim
          · obtain ⟨g2, hres⟩ := loop_sim ops tr td dbg hval hcnt hsens hbc hdom g
              (initSt inp) (initSt inp) hrel0
            rw [hexp] at hres
            rw [hBg] at hres
            rcases hg2 : Simple.loop (Simple.parse_code raw) td dbg g2 (initSt inp) with
              t3 | ⟨e3, t3⟩ | e3 | _ <;> rw [hg2] at hres
            · exact hres.elim
            · have hmax := loop_mono (Simple.parse_code raw) td dbg g2 (initSt inp)
                (.runErr e3 t3) hg2 (by intro hx; cases hx) (max g g2) (by omega)
              have hmax2 := loop_mono (Simple.parse_code raw) td dbg g (initSt inp)
                (.ok t2) hSg (by intro hx; cases hx) (max g g2) (by omega)
              rw [hmax] at hmax2
              cases hmax2
            · exact hres.elim
            · exact hres.elim
          · obtain ⟨g2, hres⟩ := loop_sim ops tr td dbg hval hcnt hsens hbc hdom g
              (initSt inp) (initSt inp) hrel0
            rw [hBg] at hres
            rcases hg2 : Simple.loop (expand ops) td dbg g2 (initSt inp) with
              t3 | ⟨e3, t3⟩ | e3 | _ <;> rw [hg2] at hres <;> exact hres.elim
          · have := loop_sim_timeout ops tr td dbg hval hcnt hsens hbc hdom g
              (initSt inp) (initSt inp) hrel0 hBg
            rw [hexp] at this
            rw [hSg] at this
            cases this
        · -- simple loop hit a runtime error
          rcases hBg : Batch.loop ops tr dbg g (initSt inp) with s2 | ⟨eB1, s2⟩ | eB2 | _
          · obtain ⟨g2, hres⟩ := loop_sim ops tr td dbg hval hcnt hsens hbc hdom g
              (initSt inp) (initSt inp) hrel0
            rw [hexp] at hres
            rw [hBg] at hres
            rcases hg2 : Simple.loop (Simple.parse_code raw) td dbg g2 (initSt inp) with
              t3 | ⟨e3, t3⟩ | e3 | _ <;> rw [hg2] at hres
            · have hmax := loop_mono (Simple.parse_code raw) td dbg g2 (initSt inp)
                (.ok t3) hg2 (by intro hx; cases hx) (max g g2) (by omega)
              have hmax2 := loop_mono (Simple.parse_code raw) td dbg g (initSt inp)
                (.runErr eS1 t2) hSg (by intro hx; cases hx) (max g g2) (by omega)
              rw [hmax] at hmax2
              cases hmax2
            · exact hres.elim
            · exact hres.elim
            · exact hres.elim
          · obtain ⟨g2, hres⟩ := loop_sim ops tr td dbg hval hcnt hsens hbc hdom g
              (initSt inp) (initSt inp) hrel0
            rw [hexp] at hres
            rw [hBg] at hres
            rcases hg2 : Simple.loop (Simple.parse_code raw) td dbg g2 (initSt inp) with
              t3 | ⟨e3, t3⟩ | e3 | _ <;> rw [hg2] at hres
            · exact hres.elim
            · have hmax := loop_mono (Simple.parse_code raw) td dbg g2 (initSt inp)
                (.runErr e3 t3) hg2 (by intro hx; cases hx) (max g g2) (by omega)
              have hmax2 := loop_mono (Simple.parse_code raw) td dbg g (initSt inp)
                (.runErr eS1 t2) hSg (by intro hx; cases hx) (max g g2) (by omega)
              rw [hmax] at hmax2
              cases hmax2
              refine ⟨g, ?_⟩
              rw [hrunB g, hrunS g, hBg, hSg]
              exact ResRel_outsMatch ops _ _ hres
            · exact hres.elim
            · exact hres.elim
          · obtain ⟨g2, hres⟩ := loop_sim ops tr td dbg hval hcnt hsens hbc hdom g
              (initSt inp) (initSt inp) hrel0
            rw [hBg] at hres
            rcases hg2 : Simple.loop (expand ops) td dbg g2 (initSt inp) with
              t3 | ⟨e3, t3⟩ | e3 | _ <;> rw [hg2] at hres <;> exact hres.elim
          · have := loop_sim_timeout ops tr td dbg hval hcnt hsens hbc hdom g
              (initSt inp) (initSt inp) hrel0 hBg
            rw [hexp] at this
            rw [hSg] at this
            cases this
        · exact absurd hSg (loop_no_synerr (Simple.parse_code raw) td dbg g (initSt inp) eS2)
        · -- simple loop timed out at fuel g: batch with fuel 0 also times out
          refine ⟨0, ?_⟩
          rw [hrunB 0, hrunS g, hSg]
          trivial

/-- C1 counterexample: for the program ",,." with input lines "A" and "B",
the direct interpreter performs two reads and outputs 'B', but the
run-length encoder merges ",," into a single instruction of count 2, which
the batch interpreter executes with a single read, outputting 'A'.  The
outputs are not byte-identical, refuting the unconditional claim. -/
theorem C1_merged_input_counterexample :
    noMergeRuns (Simple.parse_code (',' :: ',' :: '.' :: [])) = false ∧
    resOut (Batch.run 8 false (Batch.parse_code (',' :: ',' :: '.' :: []))
      [['A'], ['B']]) = some ['A'] ∧
    resOut (Simple.run 8 false (Simple.parse_code (',' :: ',' :: '.' :: []))
      [['A'], ['B']]) = some ['B'] ∧
    resOut (Batch.run 8 false (Batch.parse_code (',' :: ',' :: '.' :: []))
        [['A'], ['B']]) ≠
      resOut (Simple.run 8 false (Simple.parse_code (',' :: ',' :: '.' :: []))
        [['A'], ['B']]) := by
  decide

/-- Witness: the amended C1 theorem applied to the concrete program "+."
with empty input, whose encoding has no merge-sensitive runs. -/
theorem C1_encoding_output_preserving_witness :
    noMergeRuns (Simple.parse_code ('+' :: '.' :: [])) = true ∧
    ((∀ f, ∃ g, outsMatch (Batch.run f false (Batch.parse_code ('+' :: '.' :: [])) [])
        (Simple.run g false (Simple.parse_code ('+' :: '.' :: [])) [])) ∧
      (∀ g, ∃ f, outsMatch (Batch.run f false (Batch.parse_code ('+' :: '.' :: [])) [])
        (Simple.run g false (Simple.parse_code ('+' :: '.' :: [])) []))) :=
  ⟨by decide, C1_encoding_output_preserving ('+' :: '.' :: []) [] false (by decide)⟩

end BF
